import Mathlib

/-!
Verification development for the ChatBox realtime chat backend
(`backend/main.go`).  The Go source is shallowly embedded: the global
mutable state (in-memory message list, optional Postgres-backed store,
hub connection/room maps) becomes explicit state records, each Go
function becomes a pure Lean function from state to state, and the two
channel-driven pumps become step functions over explicit event lists.
Go `int64` values are modelled as `Int`; Go maps are modelled as
association lists with the map operations (lookup with zero-value
default, insert, delete) spelled out.
-/

set_option autoImplicit false
set_option maxRecDepth 200000

namespace ChatBox

/-- Reaction map of one message: Go `map[string][]string` (emoji → users),
modelled as an association list with at most one binding per key. -/
abbrev Reactions := List (String × List String)

/-- Go `Message` struct from `main.go` (json field names kept). -/
structure Message where
  id : Int := 0
  username : String := ""
  text : String := ""
  timestamp : String := ""
  reactions : Reactions := []
  fileUrl : String := ""
  fileType : String := ""
  fileName : String := ""
  room : String := ""
deriving DecidableEq

/-- Map read `m.Reactions[emoji]` with Go's zero value (`nil` slice ≡ `[]`)
when the key is absent. -/
def rGet : Reactions → String → List String
  | [], _ => []
  | (k, v) :: t, e => if k = e then v else rGet t e

/-- Map write `m.Reactions[emoji] = users`: replace the binding if present,
otherwise add it. -/
def rSet : Reactions → String → List String → Reactions
  | [], e, us => [(e, us)]
  | (k, v) :: t, e, us => if k = e then (e, us) :: t else (k, v) :: rSet t e us

/-- Map delete `delete(m.Reactions, emoji)`. -/
def rDel : Reactions → String → Reactions
  | [], _ => []
  | (k, v) :: t, e => if k = e then rDel t e else (k, v) :: rDel t e

/-- The removal loop inside `toggleReaction`: find the first occurrence of
`username` in `users` and drop it (`append(users[:j], users[j+1:]...)`);
`none` when the user has not reacted. -/
def removeFirst : List String → String → Option (List String)
  | [], _ => none
  | u :: t, x => if u = x then some t else (removeFirst t x).map (u :: ·)

-- -------------------- In-memory store --------------------

/-- The transient backend's globals: `messagesList` and `nextMessageID`. -/
structure MemStore where
  messagesList : List Message := []
  nextMessageID : Int := 1
deriving DecidableEq

/-- `saveMessage`, in-memory branch: assign `nextMessageID`, increment it,
append the message; the assigned id is returned. -/
def saveMessageMem (st : MemStore) (m : Message) : Int × MemStore :=
  (st.nextMessageID,
   { messagesList := st.messagesList ++ [{ m with id := st.nextMessageID }],
     nextMessageID := st.nextMessageID + 1 })

/-- `loadRecentMessages`, in-memory branch: filter by room, clamp the limit
to `(0, len]`, return the final `limit` room messages in stored order. -/
def loadRecentMessagesMem (st : MemStore) (limit : Int) (room : String) : List Message :=
  let roomMessages := st.messagesList.filter (fun m => decide (m.room = room))
  let lim : Int := if limit ≤ 0 ∨ limit > roomMessages.length then roomMessages.length else limit
  roomMessages.drop (roomMessages.length - lim.toNat)

/-- The scan loop of `editMessageText`: rewrite the text of the first
message whose id matches; `none` when no id matches. -/
def editLoop : List Message → Int → String → Option (List Message)
  | [], _, _ => none
  | m :: t, i, text =>
    if m.id = i then some ({ m with text := text } :: t)
    else (editLoop t i text).map (m :: ·)

/-- `editMessageText`, in-memory branch. -/
def editMessageTextMem (st : MemStore) (i : Int) (text : String) : Bool × MemStore :=
  match editLoop st.messagesList i text with
  | some l => (true, { st with messagesList := l })
  | none => (false, st)

/-- The scan loop of `deleteMessageByID`: remove the first message whose id
matches (`append(messagesList[:i], messagesList[i+1:]...)`). -/
def deleteLoop : List Message → Int → Option (List Message)
  | [], _ => none
  | m :: t, i => if m.id = i then some t else (deleteLoop t i).map (m :: ·)

/-- `deleteMessageByID`, in-memory branch. -/
def deleteMessageByIDMem (st : MemStore) (i : Int) : Bool × MemStore :=
  match deleteLoop st.messagesList i with
  | some l => (true, { st with messagesList := l })
  | none => (false, st)

/-- Body of `toggleReaction` acting on the matched message: remove the
user's existing reaction (dropping the emoji key when its user list
becomes empty) or append the user to the emoji's list. -/
def toggleMsg (m : Message) (emoji user : String) : Message :=
  let users := rGet m.reactions emoji
  match removeFirst users user with
  | some us =>
    if us = [] then { m with reactions := rDel m.reactions emoji }
    else { m with reactions := rSet m.reactions emoji us }
  | none => { m with reactions := rSet m.reactions emoji (users ++ [user]) }

/-- The scan loop of `toggleReaction`: toggle on the first message whose id
matches; `none` when no id matches. -/
def toggleLoop : List Message → Int → String → String → Option (List Message)
  | [], _, _, _ => none
  | m :: t, i, emoji, user =>
    if m.id = i then some (toggleMsg m emoji user :: t)
    else (toggleLoop t i emoji user).map (m :: ·)

/-- `toggleReaction`: note that the source has no `useDB` dispatch — it
always reads and mutates the in-memory `messagesList` only. -/
def toggleReactionMem (st : MemStore) (i : Int) (emoji user : String) : Bool × MemStore :=
  match toggleLoop st.messagesList i emoji user with
  | some l => (true, { st with messagesList := l })
  | none => (false, st)

-- -------------------- Durable (SQL) store --------------------

/-- One row of the `messages` table as touched by this program:
`dbSaveMessage` inserts only `(username, text)`, with `id` coming from the
table's sequence and `timestamp` defaulting to `now()`.  The room, file
and reaction columns added by the migration are never written or read by
the Go code, so they are omitted from the row model. -/
structure DbRow where
  id : Int
  username : String
  text : String
  ts : Nat
deriving DecidableEq

/-- Database state: rows plus the `BIGSERIAL` sequence and a logical clock
standing for `now()` (strictly increasing across inserts). -/
structure DbStore where
  rows : List DbRow := []
  nextId : Int := 1
  clock : Nat := 0
deriving DecidableEq

/-- `dbSaveMessage`: `INSERT INTO messages (username, text) ... RETURNING id`.
Only username and text are persisted; the message's room is dropped. -/
def dbSaveMessage (db : DbStore) (m : Message) : Int × DbStore :=
  (db.nextId,
   { rows := db.rows ++ [⟨db.nextId, m.username, m.text, db.clock⟩],
     nextId := db.nextId + 1,
     clock := db.clock + 1 })

/-- Insertion step for ordering rows by timestamp descending. -/
def insertTsDesc (r : DbRow) : List DbRow → List DbRow
  | [] => [r]
  | x :: t => if x.ts ≤ r.ts then r :: x :: t else x :: insertTsDesc r t

/-- `ORDER BY timestamp DESC` of the select in `dbLoadRecentMessages`. -/
def sortTsDesc : List DbRow → List DbRow
  | [] => []
  | r :: t => insertTsDesc r (sortTsDesc t)

/-- `dbLoadRecentMessages`: nonpositive limits default to 200; take the
`limit` newest rows by timestamp and reverse to ascending.  The query
selects no room column and takes no room argument, so every returned
message has the zero-value room `""`. -/
def dbLoadRecentMessages (db : DbStore) (limit : Int) : List Message :=
  let lim : Int := if limit ≤ 0 then 200 else limit
  let desc := (sortTsDesc db.rows).take lim.toNat
  desc.reverse.map (fun r =>
    { id := r.id, username := r.username, text := r.text, timestamp := toString r.ts })

/-- Row scan used to model `RowsAffected() == 0`. -/
def rowsHasId : List DbRow → Int → Bool
  | [], _ => false
  | r :: t, i => if r.id = i then true else rowsHasId t i

/-- `dbEditMessageText`: `UPDATE messages SET text=$1 WHERE id=$2`; an
error (`RowsAffected() == 0`) makes the caller report failure. -/
def dbEditMessageText (db : DbStore) (i : Int) (text : String) : Bool × DbStore :=
  if rowsHasId db.rows i then
    (true, { db with rows := db.rows.map (fun r => if r.id = i then { r with text := text } else r) })
  else (false, db)

/-- `dbDeleteMessageByID`: `DELETE FROM messages WHERE id=$1`; an error
(`RowsAffected() == 0`) makes the caller report failure. -/
def dbDeleteMessageByID (db : DbStore) (i : Int) : Bool × DbStore :=
  if rowsHasId db.rows i then
    (true, { db with rows := db.rows.filter (fun r => decide (r.id ≠ i)) })
  else (false, db)

-- -------------------- Backend dispatch --------------------

/-- The whole persistence state: both backends plus the startup-chosen
`useDB` flag (`DATABASE_URL` present). -/
structure GlobalState where
  mem : MemStore := {}
  db : DbStore := {}
  useDB : Bool := false
deriving DecidableEq

/-- Fresh store state for a given backend choice. -/
def initG (b : Bool) : GlobalState := { useDB := b }

/-- `saveMessage` with its `useDB` dispatch. -/
def saveMessageG (g : GlobalState) (m : Message) : Int × GlobalState :=
  if g.useDB then
    let (i, db) := dbSaveMessage g.db m
    (i, { g with db := db })
  else
    let (i, mem) := saveMessageMem g.mem m
    (i, { g with mem := mem })

/-- `loadRecentMessages` with its `useDB` dispatch: note the DB branch
forwards only `limit` and ignores the `room` argument. -/
def loadRecentMessagesG (g : GlobalState) (limit : Int) (room : String) : List Message :=
  if g.useDB then dbLoadRecentMessages g.db limit
  else loadRecentMessagesMem g.mem limit room

/-- `editMessageText` with its `useDB` dispatch. -/
def editMessageTextG (g : GlobalState) (i : Int) (text : String) : Bool × GlobalState :=
  if g.useDB then
    let (ok, db) := dbEditMessageText g.db i text
    (ok, { g with db := db })
  else
    let (ok, mem) := editMessageTextMem g.mem i text
    (ok, { g with mem := mem })

/-- `deleteMessageByID` with its `useDB` dispatch. -/
def deleteMessageByIDG (g : GlobalState) (i : Int) : Bool × GlobalState :=
  if g.useDB then
    let (ok, db) := dbDeleteMessageByID g.db i
    (ok, { g with db := db })
  else
    let (ok, mem) := deleteMessageByIDMem g.mem i
    (ok, { g with mem := mem })

/-- `toggleReaction` lifted to the whole state: it touches only the
in-memory list, whichever backend is active (faithful to the source,
which has no `useDB` branch here). -/
def toggleReactionG (g : GlobalState) (i : Int) (emoji user : String) : Bool × GlobalState :=
  let (ok, mem) := toggleReactionMem g.mem i emoji user
  (ok, { g with mem := mem })

-- -------------------- Hub --------------------

/-- A client's identity: pointer identity of the Go `*Client` is modelled
by a numeric tag, together with the fields fixed at upgrade time. -/
structure Conn where
  cid : Nat
  username : String
  room : String
deriving DecidableEq

/-- A server→client frame, the decoded form of the JSON envelopes the Go
code marshals (the Protocol Codec of the spec). -/
inductive Frame where
  | message (m : Message)
  | ack (clientId : Int) (id : Int)
  | history (messages : List Message)
  | users (names : List String) (room : String)
  | typing (username : String) (isTyping : Bool)
  | reaction (messageId : Int) (emoji : String) (username : String)
  | edit (id : Int) (text : String)
  | delete (id : Int)
deriving DecidableEq

/-- The `send` channel of one client: its buffered contents and whether
`close` has been called on it. -/
structure ConnState where
  queue : List Frame := []
  closed : Bool := false
deriving DecidableEq

/-- Buffer capacity of every client's `send` channel
(`make(chan []byte, 256)` in `serveWs`). -/
def capacity : Nat := 256

/-- Hub state: the `clients` set, the `rooms` map (room name → member
set), and each connection's channel state.  `deliveryLog` and `closeLog`
record, in order, every successful channel send and every `close` call;
they are write-only and never influence control flow.  `panicked` is set
when the hub goroutine panics — in Go a `select` send on a closed
channel panics, which kills the hub loop; a panicked hub processes no
further events. -/
structure HubState where
  clients : List Conn := []
  rooms : List (String × List Conn) := []
  chans : List (Conn × ConnState) := []
  deliveryLog : List (Conn × Frame) := []
  closeLog : List Conn := []
  panicked : Bool := false
deriving DecidableEq

/-- Generic association-list update (replace the first binding or append). -/
def aset {α : Type} {β : Type} [DecidableEq α] : List (α × β) → α → β → List (α × β)
  | [], k, v => [(k, v)]
  | (k', v') :: t, k, v => if k' = k then (k, v) :: t else (k', v') :: aset t k v

/-- Generic association-list lookup. -/
def aget? {α : Type} {β : Type} [DecidableEq α] : List (α × β) → α → Option β
  | [], _ => none
  | (k', v') :: t, k => if k' = k then some v' else aget? t k

/-- Generic association-list delete. -/
def adel {α : Type} {β : Type} [DecidableEq α] : List (α × β) → α → List (α × β)
  | [], _ => []
  | (k', v') :: t, k => if k' = k then adel t k else (k', v') :: adel t k

/-- Set-style removal from a member list (Go `delete(map, key)`). -/
def listRemove {α : Type} [DecidableEq α] : List α → α → List α
  | [], _ => []
  | x :: t, c => if x = c then listRemove t c else x :: listRemove t c

/-- Channel state of a connection (zero state when untracked). -/
def getChan (h : HubState) (c : Conn) : ConnState :=
  ((aget? h.chans c).getD {})

/-- Replace a connection's channel state. -/
def setChan (h : HubState) (c : Conn) (cs : ConnState) : HubState :=
  { h with chans := aset h.chans c cs }

/-- `close(client.send)`, with the ghost close log appended. -/
def closeChan (h : HubState) (c : Conn) : HubState :=
  let h' := setChan h c { getChan h c with closed := true }
  { h' with closeLog := h'.closeLog ++ [c] }

/-- Member list of a room (empty when the room is not in the map). -/
def roomMembers (h : HubState) (room : String) : List Conn :=
  (aget? h.rooms room).getD []

/-- The capacity half of the `select { case client.send <- msg: ...
default: ... }` dispatch: on an *open* channel the buffered send succeeds
exactly when there is space, and falls to the `default` branch when the
buffer is full.  A send on a *closed* channel is not a `default` case in
Go — it panics; the fan-out functions below model that panic explicitly
and consult `hasSpace` only after the open check. -/
def hasSpace (h : HubState) (c : Conn) : Bool :=
  decide ((getChan h c).queue.length < capacity)

/-- A successful channel send: enqueue the frame and log the delivery. -/
def enqueueFrame (h : HubState) (c : Conn) (f : Frame) : HubState :=
  let h' := setChan h c { getChan h c with queue := (getChan h c).queue ++ [f] }
  { h' with deliveryLog := h'.deliveryLog ++ [(c, f)] }

/-- Eviction of a slow consumer found during a room-scoped fan-out
(`broadcastUserList` and the sender branch of `Hub.run`): close the
channel, remove from `h.clients` and from the room's member set.  The
fan-out reaches this branch only for a member whose channel is open (a
closed channel makes the preceding `select` send panic, as in Go), so
the `close` here is always the channel's first. -/
def evictFromRoom (h : HubState) (room : String) (c : Conn) : HubState :=
  let h1 := closeChan h c
  let h2 := { h1 with clients := listRemove h1.clients c }
  { h2 with rooms := aset h2.rooms room (listRemove (roomMembers h2 room) c) }

/-- Eviction in the senderless branch of `Hub.run`: the source closes the
channel and deletes the client from `h.clients` only — it does not touch
the room membership map.  As with `evictFromRoom`, the fan-out reaches
this branch only for an open channel. -/
def evictGlobal (h : HubState) (c : Conn) : HubState :=
  let h1 := closeChan h c
  { h1 with clients := listRemove h1.clients c }

/-- Fan-out of one frame over a room's member list, skipping `skip`
(the sender, when present).  Per member the `select` is modelled exactly:
a send on a closed channel panics the hub (the loop dies on the spot,
keeping the mutations made so far); on an open channel the send succeeds
when the buffer has space and otherwise falls to the `default` branch,
which evicts the member. -/
def roomFanout (room : String) (skip : Option Conn) (f : Frame) : HubState → List Conn → HubState
  | h, [] => h
  | h, c :: rest =>
    if skip = some c then roomFanout room skip f h rest
    else if (getChan h c).closed then { h with panicked := true }
    else if hasSpace h c then roomFanout room skip f (enqueueFrame h c f) rest
    else roomFanout room skip f (evictFromRoom h room c) rest

/-- Fan-out of one frame over the global client set (senderless branch),
evicting from `h.clients` only; a send on a closed channel panics, as in
`roomFanout`. -/
def globalFanout (f : Frame) : HubState → List Conn → HubState
  | h, [] => h
  | h, c :: rest =>
    if (getChan h c).closed then { h with panicked := true }
    else if hasSpace h c then globalFanout f (enqueueFrame h c f) rest
    else globalFanout f (evictGlobal h c) rest

/-- One room's turn inside `broadcastUserList`: the user list is computed
from the membership before any delivery, then sent to each member. -/
def userListRoom (h : HubState) (room : String) (members : List Conn) : HubState :=
  roomFanout room none (Frame.users (members.map (·.username)) room) h members

/-- Iteration of `broadcastUserList` over the room map snapshot. -/
def userListRooms : HubState → List (String × List Conn) → HubState
  | h, [] => h
  | h, (room, members) :: rest => userListRooms (userListRoom h room members) rest

/-- `Hub.broadcastUserList`. -/
def broadcastUserList (h : HubState) : HubState :=
  userListRooms h h.rooms

/-- Register branch of `Hub.run`: add to the client set and the room's
member set (creating the room on first join), then send user lists.  The
fresh channel made in `serveWs` is tracked here for a first-seen
connection. -/
def registerStep (h : HubState) (c : Conn) : HubState :=
  broadcastUserList
    { h with
      chans := if (aget? h.chans c).isSome then h.chans
               else h.chans ++ [(c, ConnState.mk [] false)],
      clients := if c ∈ h.clients then h.clients else h.clients ++ [c],
      rooms := aset h.rooms c.room
        (if c ∈ roomMembers h c.room then roomMembers h c.room
         else roomMembers h c.room ++ [c]) }

/-- The room-map part of the unregister branch: `delete(roomClients,
client)` followed by dropping the room entry when it emptied (only taken
when the room exists in the map). -/
def unregRooms (h : HubState) (c : Conn) : HubState :=
  match aget? h.rooms c.room with
  | some ms =>
    if (listRemove ms c).length = 0 then { h with rooms := adel h.rooms c.room }
    else { h with rooms := aset h.rooms c.room (listRemove ms c) }
  | none => h

/-- Unregister branch of `Hub.run`: guarded by membership in `h.clients`;
removes from both maps (dropping the room entry when it empties), closes
the channel, and sends user lists.  A connection not in `h.clients` is
left entirely alone. -/
def unregisterStep (h : HubState) (c : Conn) : HubState :=
  if c ∈ h.clients then
    broadcastUserList
      (closeChan (unregRooms { h with clients := listRemove h.clients c } c) c)
  else h

/-- Broadcast branch of `Hub.run`: a sender-attributed event fans out over
the sender's room (skipping the sender; nothing happens when the room is
not in the map); a senderless event fans out over every client. -/
def broadcastStep (h : HubState) (sender : Option Conn) (f : Frame) : HubState :=
  match sender with
  | some s =>
    match aget? h.rooms s.room with
    | some members => roomFanout s.room (some s) f h members
    | none => h
  | none => globalFanout f h h.clients

/-- The three logical inputs of the hub loop. -/
inductive HubEvent where
  | reg (c : Conn)
  | unreg (c : Conn)
  | bcast (sender : Option Conn) (f : Frame)
deriving DecidableEq

/-- One iteration of `Hub.run`.  A step that hits a closed channel marks
the state `panicked` (the Go loop dies there); every theorem below either
evaluates a single step or runs a concrete trace on which no panic
occurs, so no statement depends on steps after a panic. -/
def hubStep (h : HubState) : HubEvent → HubState
  | .reg c => registerStep h c
  | .unreg c => unregisterStep h c
  | .bcast s f => broadcastStep h s f

/-- The hub loop over a whole event sequence. -/
def runHub (h : HubState) (es : List HubEvent) : HubState :=
  es.foldl hubStep h

/-- Deliveries performed by a step that took `h` to `h'` (the delivery log
is append-only). -/
def stepDeliveries (h' h : HubState) : List (Conn × Frame) :=
  h'.deliveryLog.drop h.deliveryLog.length

-- -------------------- Connection pumps --------------------

/-- The decoded client→server frame of `readPump` (zero values for absent
JSON fields, as in Go). -/
structure Incoming where
  type : String := ""
  text : String := ""
  timezone : String := ""
  clientId : Int := 0
  isTyping : Bool := false
  messageId : Int := 0
  emoji : String := ""
  fileUrl : String := ""
  fileType : String := ""
  fileName : String := ""
deriving DecidableEq

/-- Result of one `readPump` iteration: the new store state, the frames
written directly to this client's socket (`c.conn.WriteMessage`), and the
broadcasts pushed onto the hub's channel, in order. -/
structure PumpOut where
  g : GlobalState
  direct : List Frame
  events : List (Option Conn × Frame)
deriving DecidableEq

/-- One `readPump` iteration on a decoded frame.  `ts` is the wall-clock
string `getTimestamp` would produce (environment input).  Mirrors the
dispatch order of the source: typing, then reaction (only when
`messageId > 0` and the emoji is nonempty), then the empty-text skip,
then the chat-send path (persist, conditional ack, typing-stop
broadcast, message broadcast). -/
def readPumpStep (g : GlobalState) (c : Conn) (inc : Incoming) (ts : String) : PumpOut :=
  if inc.type = "typing" then
    ⟨g, [], [(some c, Frame.typing c.username inc.isTyping)]⟩
  else if inc.type = "reaction" ∧ inc.messageId > 0 ∧ inc.emoji ≠ "" then
    let (ok, g') := toggleReactionG g inc.messageId inc.emoji c.username
    ⟨g', [], if ok then [(none, Frame.reaction inc.messageId inc.emoji c.username)] else []⟩
  else if inc.text = "" ∧ inc.fileUrl = "" then ⟨g, [], []⟩
  else
    let m : Message :=
      { username := c.username, text := inc.text, timestamp := ts, reactions := [],
        fileUrl := inc.fileUrl, fileType := inc.fileType, fileName := inc.fileName,
        room := c.room }
    let (i, g') := saveMessageG g m
    let m' := { m with id := i }
    ⟨g',
     if inc.clientId > 0 then [Frame.ack inc.clientId i] else [],
     [(some c, Frame.typing c.username false), (some c, Frame.message m')]⟩

/-- `serveWs` after a successful upgrade: register the fresh connection
(its channel has capacity 256 and starts empty), then write the history
frame directly to the socket — but only when the loaded history is
nonempty (`if len(history) > 0`). -/
def serveWsJoin (g : GlobalState) (h : HubState) (c : Conn) : HubState × List Frame :=
  let h' := registerStep h c
  let history := loadRecentMessagesG g 200 c.room
  (h', if history = [] then [] else [Frame.history history])

-- -------------------- Store operation traces --------------------

/-- The four store mutators, for reasoning about operation sequences. -/
inductive StoreOp where
  | save (m : Message)
  | edit (i : Int) (text : String)
  | del (i : Int)
  | react (i : Int) (emoji : String) (user : String)
deriving DecidableEq

/-- Run a sequence of store operations, collecting the ids returned by the
`save` calls in order. -/
def runStoreOps : GlobalState → List StoreOp → GlobalState × List Int
  | g, [] => (g, [])
  | g, .save m :: rest =>
    let (i, g') := saveMessageG g m
    let (g'', ids) := runStoreOps g' rest
    (g'', i :: ids)
  | g, .edit i t :: rest => runStoreOps (editMessageTextG g i t).2 rest
  | g, .del i :: rest => runStoreOps (deleteMessageByIDG g i).2 rest
  | g, .react i e u :: rest => runStoreOps (toggleReactionG g i e u).2 rest

/-- Message ids of a stored list, in order. -/
def msgIds (l : List Message) : List Int := l.map (·.id)

/-- Row ids of the database, in order. -/
def rowIds (l : List DbRow) : List Int := l.map (·.id)

/-- In-memory id lookup (the Bool the scan loops branch on). -/
def memHasId : List Message → Int → Bool
  | [], _ => false
  | m :: t, i => if m.id = i then true else memHasId t i

/-- The id column the active backend would consult. -/
def hasIdG (g : GlobalState) (i : Int) : Bool :=
  if g.useDB then rowsHasId g.db.rows i else memHasId g.mem.messagesList i

/-- Reactor list of the first stored message with the given id (what
`toggleReaction` reads and rewrites). -/
def reactorsOf : List Message → Int → String → List String
  | [], _, _ => []
  | m :: t, i, e => if m.id = i then rGet m.reactions e else reactorsOf t i e

-- -------------------- Concrete scenario states --------------------

/-- Connection A in room "general". -/
def connA : Conn := ⟨0, "A", "general"⟩

/-- Connection B in room "general". -/
def connB : Conn := ⟨1, "B", "general"⟩

/-- Connection C in room "other". -/
def connC : Conn := ⟨2, "C", "other"⟩

/-- A frame used to flood a queue in the eviction scenarios. -/
def pingFrame : Frame := Frame.typing "B" true

/-- A trace that fills connection A's queue to capacity: A and B join
"general" (two user-list frames reach A), then B sends 254 sender-scoped
broadcasts, each delivered to A only. -/
def fillTrace : List HubEvent :=
  [HubEvent.reg connA, HubEvent.reg connB] ++
    List.replicate 254 (HubEvent.bcast (some connB) pingFrame)

/-- The hub state after `fillTrace`: A's queue holds 256 frames. -/
def hFull : HubState := runHub {} fillTrace

/-- The message B broadcasts once A's queue is full. -/
def lateMsg : Message := { id := 99, username := "B", text := "late", room := "general" }

/-- In-memory store holding 250 messages saved to room "general"
(ids 1..250). -/
def store250 : MemStore :=
  (List.range 250).foldl
    (fun st k => (saveMessageMem st { username := "A", text := toString k, room := "general" }).2)
    ⟨[], 1⟩

/-- Durable backend after one message sent from room "other": the row
keeps only username and text. -/
def gDbOne : GlobalState :=
  (saveMessageG (initG true) { username := "A", text := "hi", room := "other" }).2

/-- The hub after the senderless broadcast that evicts full-queued A:
A is deleted from `clients` but still listed in room "general". -/
def hLeak : HubState := broadcastStep hFull none (Frame.delete 1)

/-- Small hub with A, B in "general" and C in "other", all queues short. -/
def hTrio : HubState :=
  runHub {} [HubEvent.reg connA, HubEvent.reg connB, HubEvent.reg connC]

/-- A two-message in-memory store (ids 1 and 2) for edit/delete runs. -/
def gTwo : GlobalState :=
  { mem := ⟨[{ id := 1, username := "A", text := "a", room := "general" },
             { id := 2, username := "B", text := "b", room := "general" }], 3⟩ }

/-- A one-message store where B has already reacted with ":)". -/
def gReact : GlobalState :=
  { mem := ⟨[{ id := 1, username := "A", text := "a",
               reactions := [(":)", ["B"])], room := "g" }], 2⟩ }

/-- A decoded reaction frame for message 1. -/
def incReaction : Incoming := { type := "reaction", messageId := 1, emoji := ":)" }

/-- A decoded chat send with correlation id 1001. -/
def incChat : Incoming := { text := "hi", clientId := 1001 }

/-- The user-list toggle at the level of one emoji's reactor list: the
net effect of `toggleReaction` on `reactions[emoji]` (remove the first
occurrence, or append when absent). -/
def uToggle (users : List String) (u : String) : List String :=
  match removeFirst users u with
  | some us => us
  | none => users ++ [u]

/-- The id counter the active backend's next `Save` will hand out. -/
def nextIdOf (g : GlobalState) : Int :=
  if g.useDB then g.db.nextId else g.mem.nextMessageID

-- -------------------- Helper lemmas: lists and scans --------------------

theorem listRemove_not_mem {α : Type} [DecidableEq α] (l : List α) (c : α) :
    c ∉ listRemove l c := by
  induction l with
  | nil => simp [listRemove]
  | cons x t ih =>
    by_cases hx : x = c
    · simpa [listRemove, hx] using ih
    · simp [listRemove, hx, ih, Ne.symm hx]

theorem listRemove_subset {α : Type} [DecidableEq α] (l : List α) (c : α) :
    ∀ x, x ∈ listRemove l c → x ∈ l := by
  induction l with
  | nil => simp [listRemove]
  | cons y t ih =>
    intro x hx
    by_cases hy : y = c
    · simp only [listRemove, if_pos hy] at hx
      exact List.mem_cons_of_mem _ (ih x hx)
    · simp only [listRemove, if_neg hy, List.mem_cons] at hx
      rcases hx with h | h
      · exact h ▸ List.mem_cons_self _ _
      · exact List.mem_cons_of_mem _ (ih x h)

theorem memHasId_false_iff (l : List Message) (i : Int) :
    memHasId l i = false ↔ ∀ m ∈ l, m.id ≠ i := by
  induction l with
  | nil => simp [memHasId]
  | cons m t ih =>
    by_cases hm : m.id = i
    · simp [memHasId, hm]
    · simp [memHasId, hm, ih]

theorem editLoop_none (l : List Message) (i : Int) (t : String)
    (h : memHasId l i = false) : editLoop l i t = none := by
  induction l with
  | nil => rfl
  | cons m rest ih =>
    rw [memHasId] at h
    by_cases hm : m.id = i
    · simp [hm] at h
    · rw [if_neg hm] at h
      simp [editLoop, hm, ih h]

theorem deleteLoop_none (l : List Message) (i : Int)
    (h : memHasId l i = false) : deleteLoop l i = none := by
  induction l with
  | nil => rfl
  | cons m rest ih =>
    rw [memHasId] at h
    by_cases hm : m.id = i
    · simp [hm] at h
    · rw [if_neg hm] at h
      simp [deleteLoop, hm, ih h]

theorem toggleLoop_none (l : List Message) (i : Int) (e u : String)
    (h : memHasId l i = false) : toggleLoop l i e u = none := by
  induction l with
  | nil => rfl
  | cons m rest ih =>
    rw [memHasId] at h
    by_cases hm : m.id = i
    · simp [hm] at h
    · rw [if_neg hm] at h
      simp [toggleLoop, hm, ih h]

theorem memHasId_decomp (l : List Message) (i : Int) (h : memHasId l i = true) :
    ∃ pre m post, l = pre ++ m :: post ∧ m.id = i ∧ memHasId pre i = false := by
  induction l with
  | nil => simp [memHasId] at h
  | cons m rest ih =>
    by_cases hm : m.id = i
    · exact ⟨[], m, rest, rfl, hm, rfl⟩
    · rw [memHasId, if_neg hm] at h
      obtain ⟨pre, m', post, hl, hid, hpre⟩ := ih h
      refine ⟨m :: pre, m', post, by rw [hl]; rfl, hid, ?_⟩
      rw [memHasId, if_neg hm, hpre]

theorem editLoop_append (pre : List Message) (m : Message) (post : List Message)
    (i : Int) (t : String) (hpre : memHasId pre i = false) (hm : m.id = i) :
    editLoop (pre ++ m :: post) i t = some (pre ++ { m with text := t } :: post) := by
  induction pre with
  | nil => simp [editLoop, hm]
  | cons x rest ih =>
    rw [memHasId] at hpre
    by_cases hx : x.id = i
    · simp [hx] at hpre
    · rw [if_neg hx] at hpre
      simp [editLoop, hx, ih hpre]

theorem deleteLoop_append (pre : List Message) (m : Message) (post : List Message)
    (i : Int) (hpre : memHasId pre i = false) (hm : m.id = i) :
    deleteLoop (pre ++ m :: post) i = some (pre ++ post) := by
  induction pre with
  | nil => simp [deleteLoop, hm]
  | cons x rest ih =>
    rw [memHasId] at hpre
    by_cases hx : x.id = i
    · simp [hx] at hpre
    · rw [if_neg hx] at hpre
      simp [deleteLoop, hx, ih hpre]

theorem toggleLoop_append (pre : List Message) (m : Message) (post : List Message)
    (i : Int) (e u : String) (hpre : memHasId pre i = false) (hm : m.id = i) :
    toggleLoop (pre ++ m :: post) i e u = some (pre ++ toggleMsg m e u :: post) := by
  induction pre with
  | nil => simp [toggleLoop, hm]
  | cons x rest ih =>
    rw [memHasId] at hpre
    by_cases hx : x.id = i
    · simp [hx] at hpre
    · rw [if_neg hx] at hpre
      simp [toggleLoop, hx, ih hpre]

theorem reactorsOf_append (pre : List Message) (m : Message) (post : List Message)
    (i : Int) (e : String) (hpre : memHasId pre i = false) (hm : m.id = i) :
    reactorsOf (pre ++ m :: post) i e = rGet m.reactions e := by
  induction pre with
  | nil => simp [reactorsOf, hm]
  | cons x rest ih =>
    rw [memHasId] at hpre
    by_cases hx : x.id = i
    · simp [hx] at hpre
    · rw [if_neg hx] at hpre
      simp [reactorsOf, hx, ih hpre]

theorem memHasId_append (l₁ l₂ : List Message) (i : Int) :
    memHasId (l₁ ++ l₂) i = (memHasId l₁ i || memHasId l₂ i) := by
  induction l₁ with
  | nil => simp [memHasId]
  | cons m t ih =>
    by_cases hm : m.id = i
    · simp [memHasId, hm]
    · simp [memHasId, hm, ih]

theorem memHasId_iff_mem_msgIds (l : List Message) (i : Int) :
    memHasId l i = true ↔ i ∈ msgIds l := by
  induction l with
  | nil => simp [memHasId, msgIds]
  | cons m t ih =>
    by_cases hm : m.id = i
    · simp [memHasId, hm, msgIds]
    · simp [memHasId, hm, msgIds, Ne.symm hm]
      simpa [msgIds] using ih

theorem rowsHasId_decomp (l : List DbRow) (i : Int) (h : rowsHasId l i = true) :
    ∃ pre r post, l = pre ++ r :: post ∧ r.id = i ∧ rowsHasId pre i = false := by
  induction l with
  | nil => simp [rowsHasId] at h
  | cons r rest ih =>
    by_cases hr : r.id = i
    · exact ⟨[], r, rest, rfl, hr, rfl⟩
    · rw [rowsHasId, if_neg hr] at h
      obtain ⟨pre, r', post, hl, hid, hpre⟩ := ih h
      refine ⟨r :: pre, r', post, by rw [hl]; rfl, hid, ?_⟩
      rw [rowsHasId, if_neg hr, hpre]

theorem rowsHasId_iff_mem_rowIds (l : List DbRow) (i : Int) :
    rowsHasId l i = true ↔ i ∈ rowIds l := by
  induction l with
  | nil => simp [rowsHasId, rowIds]
  | cons r t ih =>
    by_cases hr : r.id = i
    · simp [rowsHasId, hr, rowIds]
    · simp [rowsHasId, hr, rowIds, Ne.symm hr]
      simpa [rowIds] using ih

theorem rowsMap_noid (l : List DbRow) (i : Int) (t : String)
    (h : rowsHasId l i = false) :
    l.map (fun r => if r.id = i then { r with text := t } else r) = l := by
  induction l with
  | nil => rfl
  | cons r rest ih =>
    rw [rowsHasId] at h
    by_cases hr : r.id = i
    · simp [hr] at h
    · rw [if_neg hr] at h
      simp [hr, ih h]

theorem rowsFilter_noid (l : List DbRow) (i : Int)
    (h : rowsHasId l i = false) :
    l.filter (fun r => decide (r.id ≠ i)) = l := by
  induction l with
  | nil => rfl
  | cons r rest ih =>
    rw [rowsHasId] at h
    by_cases hr : r.id = i
    · simp [hr] at h
    · rw [if_neg hr] at h
      have hd : (decide (r.id ≠ i)) = true := by simp [hr]
      rw [List.filter_cons, hd, if_pos rfl, ih h]

-- -------------------- Helper lemmas: reactions --------------------

theorem rGet_rSet_self (l : Reactions) (e : String) (us : List String) :
    rGet (rSet l e us) e = us := by
  induction l with
  | nil => simp [rSet, rGet]
  | cons p t ih =>
    by_cases hp : p.1 = e
    · simp [rSet, rGet, hp]
    · simp [rSet, rGet, hp, ih]

theorem rGet_rDel_self (l : Reactions) (e : String) :
    rGet (rDel l e) e = [] := by
  induction l with
  | nil => simp [rDel, rGet]
  | cons p t ih =>
    by_cases hp : p.1 = e
    · simpa [rDel, hp] using ih
    · simp [rDel, rGet, hp, ih]

theorem removeFirst_none_iff (l : List String) (u : String) :
    removeFirst l u = none ↔ u ∉ l := by
  induction l with
  | nil => simp [removeFirst]
  | cons x t ih =>
    by_cases hx : x = u
    · simp [removeFirst, hx]
    · simp [removeFirst, hx, Ne.symm hx]
      simpa using ih

theorem removeFirst_mem_iff (l : List String) (u : String) {us : List String}
    (h : removeFirst l u = some us) : ∀ x, x ∈ l ↔ x ∈ us ∨ x = u := by
  induction l generalizing us with
  | nil => simp [removeFirst] at h
  | cons y t ih =>
    rw [removeFirst] at h
    by_cases hy : y = u
    · rw [if_pos hy] at h
      cases h
      intro x
      subst hy
      constructor
      · intro hx
        rcases List.mem_cons.mp hx with h | h
        · exact Or.inr h
        · exact Or.inl h
      · rintro (h | h)
        · exact List.mem_cons_of_mem _ h
        · exact h ▸ List.mem_cons_self _ _
    · rw [if_neg hy] at h
      cases hrec : removeFirst t u with
      | none => rw [hrec] at h; simp at h
      | some ts =>
        rw [hrec] at h
        simp only [Option.map_some'] at h
        cases h
        intro x
        have := ih hrec x
        constructor
        · intro hx
          rcases List.mem_cons.mp hx with h | h
          · exact Or.inl (h ▸ List.mem_cons_self _ _)
          · rcases this.mp h with h' | h'
            · exact Or.inl (List.mem_cons_of_mem _ h')
            · exact Or.inr h'
        · rintro (h | h)
          · rcases List.mem_cons.mp h with h' | h'
            · exact h' ▸ List.mem_cons_self _ _
            · exact List.mem_cons_of_mem _ (this.mpr (Or.inl h'))
          · exact List.mem_cons_of_mem _ (this.mpr (Or.inr h))

theorem removeFirst_count (l : List String) (u : String) {us : List String}
    (h : removeFirst l u = some us) : us.count u + 1 = l.count u := by
  induction l generalizing us with
  | nil => simp [removeFirst] at h
  | cons y t ih =>
    rw [removeFirst] at h
    by_cases hy : y = u
    · rw [if_pos hy] at h
      cases h
      simp [hy, List.count_cons_self]
    · rw [if_neg hy] at h
      cases hrec : removeFirst t u with
      | none => rw [hrec] at h; simp at h
      | some ts =>
        rw [hrec] at h
        simp only [Option.map_some'] at h
        cases h
        have := ih hrec
        simp [List.count_cons, hy, Ne.symm hy] at this ⊢
        omega

theorem removeFirst_append_self (l : List String) (u : String) (h : u ∉ l) :
    removeFirst (l ++ [u]) u = some l := by
  induction l with
  | nil => simp [removeFirst]
  | cons x t ih =>
    have hx : ¬ x = u := fun hc => h (hc ▸ List.mem_cons_self _ _)
    have ht : u ∉ t := fun hc => h (List.mem_cons_of_mem _ hc)
    simp [removeFirst, hx, ih ht]

theorem uToggle_twice_mem (us : List String) (u : String)
    (hc : us.count u ≤ 1) : ∀ x, x ∈ uToggle (uToggle us u) u ↔ x ∈ us := by
  intro x
  cases hrem : removeFirst us u with
  | none =>
    have hu : u ∉ us := (removeFirst_none_iff us u).mp hrem
    have h1 : uToggle us u = us ++ [u] := by rw [uToggle, hrem]
    rw [h1, uToggle, removeFirst_append_self us u hu]
  | some us' =>
    have hcnt := removeFirst_count us u hrem
    have hu' : u ∉ us' := by
      have : us'.count u = 0 := by omega
      exact List.count_eq_zero.mp this
    have hmem := removeFirst_mem_iff us u hrem
    have h1 : uToggle us u = us' := by rw [uToggle, hrem]
    rw [h1, uToggle, (removeFirst_none_iff us' u).mpr hu']
    rw [List.mem_append, List.mem_singleton, hmem x]

theorem rGet_toggleMsg (m : Message) (e u : String) :
    rGet (toggleMsg m e u).reactions e = uToggle (rGet m.reactions e) u := by
  rw [toggleMsg, uToggle]
  cases hrem : removeFirst (rGet m.reactions e) u with
  | none => simp [rGet_rSet_self]
  | some us =>
    by_cases hus : us = []
    · simp [hus, rGet_rDel_self]
    · simp [hus, rGet_rSet_self]

theorem toggleMsg_id (m : Message) (e u : String) : (toggleMsg m e u).id = m.id := by
  rw [toggleMsg]
  cases removeFirst (rGet m.reactions e) u with
  | none => rfl
  | some us =>
    by_cases hus : us = [] <;> simp [hus]

-- -------------------- Helper lemmas: id assignment --------------------

theorem saveMessageG_fst (g : GlobalState) (m : Message) :
    (saveMessageG g m).1 = nextIdOf g := by
  by_cases h : g.useDB <;>
    simp [saveMessageG, dbSaveMessage, saveMessageMem, nextIdOf, h]

theorem saveMessageG_nextId (g : GlobalState) (m : Message) :
    nextIdOf (saveMessageG g m).2 = nextIdOf g + 1 := by
  by_cases h : g.useDB <;>
    simp [saveMessageG, dbSaveMessage, saveMessageMem, nextIdOf, h]

theorem editMessageTextG_nextId (g : GlobalState) (i : Int) (t : String) :
    nextIdOf (editMessageTextG g i t).2 = nextIdOf g := by
  by_cases h : g.useDB
  · rw [editMessageTextG, if_pos h]
    rw [dbEditMessageText]
    by_cases hr : rowsHasId g.db.rows i = true <;> simp [hr, nextIdOf, h]
  · rw [editMessageTextG, if_neg h]
    rw [editMessageTextMem]
    cases editLoop g.mem.messagesList i t <;> simp [nextIdOf, h]

theorem deleteMessageByIDG_nextId (g : GlobalState) (i : Int) :
    nextIdOf (deleteMessageByIDG g i).2 = nextIdOf g := by
  by_cases h : g.useDB
  · rw [deleteMessageByIDG, if_pos h]
    rw [dbDeleteMessageByID]
    by_cases hr : rowsHasId g.db.rows i = true <;> simp [hr, nextIdOf, h]
  · rw [deleteMessageByIDG, if_neg h]
    rw [deleteMessageByIDMem]
    cases deleteLoop g.mem.messagesList i <;> simp [nextIdOf, h]

theorem toggleReactionG_nextId (g : GlobalState) (i : Int) (e u : String) :
    nextIdOf (toggleReactionG g i e u).2 = nextIdOf g := by
  rw [toggleReactionG, toggleReactionMem]
  cases toggleLoop g.mem.messagesList i e u <;> by_cases h : g.useDB <;> simp [nextIdOf, h]

theorem runStoreOps_ids (ops : List StoreOp) : ∀ g : GlobalState,
    ((runStoreOps g ops).2).Pairwise (· < ·) ∧
    (∀ i ∈ (runStoreOps g ops).2, nextIdOf g ≤ i) := by
  induction ops with
  | nil => intro g; simp [runStoreOps]
  | cons op rest ih =>
    intro g
    cases op with
    | save m =>
      have heq : (runStoreOps g (.save m :: rest)).2 =
          (saveMessageG g m).1 :: (runStoreOps (saveMessageG g m).2 rest).2 := rfl
      obtain ⟨ihp, ihlb⟩ := ih (saveMessageG g m).2
      rw [heq, saveMessageG_fst]
      have hnext := saveMessageG_nextId g m
      constructor
      · rw [List.pairwise_cons]
        refine ⟨fun b hb => ?_, ihp⟩
        have := ihlb b hb
        rw [hnext] at this
        omega
      · intro i hi
        rcases List.mem_cons.mp hi with h | h
        · exact le_of_eq h.symm
        · have := ihlb i h
          rw [hnext] at this
          omega
    | edit i t =>
      have heq : runStoreOps g (.edit i t :: rest) =
          runStoreOps (editMessageTextG g i t).2 rest := rfl
      obtain ⟨ihp, ihlb⟩ := ih (editMessageTextG g i t).2
      rw [heq]
      exact ⟨ihp, fun j hj => (editMessageTextG_nextId g i t) ▸ ihlb j hj⟩
    | del i =>
      have heq : runStoreOps g (.del i :: rest) =
          runStoreOps (deleteMessageByIDG g i).2 rest := rfl
      obtain ⟨ihp, ihlb⟩ := ih (deleteMessageByIDG g i).2
      rw [heq]
      exact ⟨ihp, fun j hj => (deleteMessageByIDG_nextId g i) ▸ ihlb j hj⟩
    | react i e u =>
      have heq : runStoreOps g (.react i e u :: rest) =
          runStoreOps (toggleReactionG g i e u).2 rest := rfl
      obtain ⟨ihp, ihlb⟩ := ih (toggleReactionG g i e u).2
      rw [heq]
      exact ⟨ihp, fun j hj => (toggleReactionG_nextId g i e u) ▸ ihlb j hj⟩

-- -------------------- Helper lemmas: channels and fan-out --------------------

theorem aget?_aset_self {α : Type} {β : Type} [DecidableEq α]
    (l : List (α × β)) (k : α) (v : β) : aget? (aset l k v) k = some v := by
  induction l with
  | nil => simp [aset, aget?]
  | cons p t ih =>
    by_cases hp : p.1 = k
    · simp [aset, aget?, hp]
    · simp [aset, aget?, hp, ih]

theorem aget?_aset_ne {α : Type} {β : Type} [DecidableEq α]
    (l : List (α × β)) (k k' : α) (v : β) (hk : ¬ k' = k) :
    aget? (aset l k v) k' = aget? l k' := by
  have hk2 : ¬ k = k' := fun hc => hk hc.symm
  induction l with
  | nil => simp [aset, aget?, hk2]
  | cons p t ih =>
    obtain ⟨pk, pv⟩ := p
    by_cases hp : pk = k
    · subst hp
      simp [aset, aget?, hk2, ih]
    · by_cases hp' : pk = k'
      · subst hp'
        simp [aset, aget?, hp, hk, ih]
      · simp [aset, aget?, hp, hp', ih]

theorem getChan_setChan_self (h : HubState) (c : Conn) (cs : ConnState) :
    getChan (setChan h c cs) c = cs := by
  simp [getChan, setChan, aget?_aset_self]

theorem getChan_setChan_ne (h : HubState) (c : Conn) (cs : ConnState)
    (c' : Conn) (hne : ¬ c' = c) : getChan (setChan h c cs) c' = getChan h c' := by
  simp [getChan, setChan, aget?_aset_ne _ _ _ _ hne]

theorem enqueueFrame_clients (h : HubState) (c : Conn) (f : Frame) :
    (enqueueFrame h c f).clients = h.clients := rfl

theorem enqueueFrame_rooms (h : HubState) (c : Conn) (f : Frame) :
    (enqueueFrame h c f).rooms = h.rooms := rfl

theorem enqueueFrame_closeLog (h : HubState) (c : Conn) (f : Frame) :
    (enqueueFrame h c f).closeLog = h.closeLog := rfl

theorem enqueueFrame_deliveryLog (h : HubState) (c : Conn) (f : Frame) :
    (enqueueFrame h c f).deliveryLog = h.deliveryLog ++ [(c, f)] := rfl

theorem getChan_enqueueFrame_self (h : HubState) (c : Conn) (f : Frame) :
    getChan (enqueueFrame h c f) c =
      ⟨(getChan h c).queue ++ [f], (getChan h c).closed⟩ := by
  have : getChan (enqueueFrame h c f) c =
      getChan (setChan h c ⟨(getChan h c).queue ++ [f], (getChan h c).closed⟩) c := rfl
  rw [this, getChan_setChan_self]

theorem getChan_enqueueFrame_ne (h : HubState) (c : Conn) (f : Frame)
    (c' : Conn) (hne : ¬ c' = c) :
    getChan (enqueueFrame h c f) c' = getChan h c' := by
  have : getChan (enqueueFrame h c f) c' =
      getChan (setChan h c ⟨(getChan h c).queue ++ [f], (getChan h c).closed⟩) c' := rfl
  rw [this, getChan_setChan_ne _ _ _ _ hne]

theorem closeChan_deliveryLog (h : HubState) (c : Conn) :
    (closeChan h c).deliveryLog = h.deliveryLog := rfl

theorem closeChan_closeLog (h : HubState) (c : Conn) :
    (closeChan h c).closeLog = h.closeLog ++ [c] := rfl

theorem closeChan_clients (h : HubState) (c : Conn) :
    (closeChan h c).clients = h.clients := rfl

theorem closeChan_rooms (h : HubState) (c : Conn) :
    (closeChan h c).rooms = h.rooms := rfl

theorem getChan_closeChan_ne (h : HubState) (c c' : Conn) (hne : ¬ c' = c) :
    getChan (closeChan h c) c' = getChan h c' := by
  have : getChan (closeChan h c) c' =
      getChan (setChan h c ⟨(getChan h c).queue, true⟩) c' := rfl
  rw [this, getChan_setChan_ne _ _ _ _ hne]

theorem evictFromRoom_deliveryLog (h : HubState) (room : String) (c : Conn) :
    (evictFromRoom h room c).deliveryLog = h.deliveryLog := rfl

theorem evictFromRoom_closeLog (h : HubState) (room : String) (c : Conn) :
    (evictFromRoom h room c).closeLog = h.closeLog ++ [c] := rfl

theorem evictFromRoom_clients (h : HubState) (room : String) (c : Conn) :
    (evictFromRoom h room c).clients = listRemove h.clients c := rfl

theorem getChan_evictFromRoom_ne (h : HubState) (room : String) (c c' : Conn)
    (hne : ¬ c' = c) : getChan (evictFromRoom h room c) c' = getChan h c' := by
  show getChan { closeChan h c with
      clients := listRemove (closeChan h c).clients c,
      rooms := _ } c' = getChan h c'
  rw [show ∀ (x : HubState) (cl : List Conn) (rm : List (String × List Conn)),
      getChan { x with clients := cl, rooms := rm } c' = getChan x c' from fun _ _ _ => rfl]
  exact getChan_closeChan_ne h c c' hne

theorem evictGlobal_deliveryLog (h : HubState) (c : Conn) :
    (evictGlobal h c).deliveryLog = h.deliveryLog := rfl

theorem evictGlobal_closeLog (h : HubState) (c : Conn) :
    (evictGlobal h c).closeLog = h.closeLog ++ [c] := rfl

theorem evictGlobal_clients (h : HubState) (c : Conn) :
    (evictGlobal h c).clients = listRemove h.clients c := rfl

theorem getChan_evictGlobal_ne (h : HubState) (c c' : Conn)
    (hne : ¬ c' = c) : getChan (evictGlobal h c) c' = getChan h c' := by
  show getChan { closeChan h c with clients := listRemove (closeChan h c).clients c } c'
      = getChan h c'
  rw [show ∀ (x : HubState) (cl : List Conn),
      getChan { x with clients := cl } c' = getChan x c' from fun _ _ => rfl]
  exact getChan_closeChan_ne h c c' hne

theorem hasSpace_congr (h h' : HubState) (c : Conn)
    (hc : getChan h' c = getChan h c) : hasSpace h' c = hasSpace h c := by
  rw [hasSpace, hasSpace, hc]

theorem roomFanout_log (room : String) (skip : Option Conn) (f : Frame) :
    ∀ (ms : List Conn) (h : HubState), ms.Nodup →
    (∀ c ∈ ms, ¬ skip = some c → (getChan h c).closed = false) →
    (roomFanout room skip f h ms).deliveryLog =
      h.deliveryLog ++
        (ms.filter (fun c => decide (¬ skip = some c) && hasSpace h c)).map
          (fun c => (c, f)) := by
  intro ms
  induction ms with
  | nil => intro h _ _; simp [roomFanout]
  | cons c rest ih =>
    intro h hnd hop
    have hc : c ∉ rest := (List.nodup_cons.mp hnd).1
    have hrest : rest.Nodup := (List.nodup_cons.mp hnd).2
    have hoprest : ∀ x ∈ rest, ¬ skip = some x → (getChan h x).closed = false :=
      fun x hx => hop x (List.mem_cons_of_mem _ hx)
    simp only [roomFanout]
    by_cases hs : skip = some c
    · rw [if_pos hs]
      have hp : (decide (¬ skip = some c) && hasSpace h c) = false := by simp [hs]
      rw [List.filter_cons, hp]
      simpa using ih h hrest hoprest
    · rw [if_neg hs]
      have hopc : (getChan h c).closed = false := hop c (List.mem_cons_self _ _) hs
      rw [if_neg (show ¬ (getChan h c).closed = true by rw [hopc]; exact Bool.false_ne_true)]
      by_cases hacc : hasSpace h c = true
      · rw [if_pos hacc]
        have hcong : rest.filter (fun x => decide (¬ skip = some x) && hasSpace (enqueueFrame h c f) x)
            = rest.filter (fun x => decide (¬ skip = some x) && hasSpace h x) := by
          refine List.filter_congr fun x hx => ?_
          have hxc : ¬ x = c := fun hh => hc (hh ▸ hx)
          rw [hasSpace_congr _ _ _ (getChan_enqueueFrame_ne h c f x hxc)]
        have hoprest' : ∀ x ∈ rest, ¬ skip = some x →
            (getChan (enqueueFrame h c f) x).closed = false := by
          intro x hx hxs
          have hxc : ¬ x = c := fun hh => hc (hh ▸ hx)
          rw [getChan_enqueueFrame_ne h c f x hxc]
          exact hoprest x hx hxs
        have hp : (decide (¬ skip = some c) && hasSpace h c) = true := by simp [hs, hacc]
        rw [ih (enqueueFrame h c f) hrest hoprest', hcong, enqueueFrame_deliveryLog,
          List.filter_cons, hp]
        simp
      · rw [if_neg hacc]
        have hcong : rest.filter (fun x => decide (¬ skip = some x) && hasSpace (evictFromRoom h room c) x)
            = rest.filter (fun x => decide (¬ skip = some x) && hasSpace h x) := by
          refine List.filter_congr fun x hx => ?_
          have hxc : ¬ x = c := fun hh => hc (hh ▸ hx)
          rw [hasSpace_congr _ _ _ (getChan_evictFromRoom_ne h room c x hxc)]
        have hoprest' : ∀ x ∈ rest, ¬ skip = some x →
            (getChan (evictFromRoom h room c) x).closed = false := by
          intro x hx hxs
          have hxc : ¬ x = c := fun hh => hc (hh ▸ hx)
          rw [getChan_evictFromRoom_ne h room c x hxc]
          exact hoprest x hx hxs
        have hp : (decide (¬ skip = some c) && hasSpace h c) = false := by
          simp [Bool.eq_false_iff.mpr hacc]
        rw [ih (evictFromRoom h room c) hrest hoprest', hcong, evictFromRoom_deliveryLog,
          List.filter_cons, hp]
        simp

theorem globalFanout_log (f : Frame) :
    ∀ (ms : List Conn) (h : HubState), ms.Nodup →
    (∀ c ∈ ms, (getChan h c).closed = false) →
    (globalFanout f h ms).deliveryLog =
      h.deliveryLog ++ (ms.filter (fun c => hasSpace h c)).map (fun c => (c, f)) := by
  intro ms
  induction ms with
  | nil => intro h _ _; simp [globalFanout]
  | cons c rest ih =>
    intro h hnd hop
    have hc : c ∉ rest := (List.nodup_cons.mp hnd).1
    have hrest : rest.Nodup := (List.nodup_cons.mp hnd).2
    have hoprest : ∀ x ∈ rest, (getChan h x).closed = false :=
      fun x hx => hop x (List.mem_cons_of_mem _ hx)
    simp only [globalFanout]
    have hopc : (getChan h c).closed = false := hop c (List.mem_cons_self _ _)
    rw [if_neg (show ¬ (getChan h c).closed = true by rw [hopc]; exact Bool.false_ne_true)]
    by_cases hacc : hasSpace h c = true
    · rw [if_pos hacc]
      have hcong : rest.filter (fun x => hasSpace (enqueueFrame h c f) x)
          = rest.filter (fun x => hasSpace h x) := by
        refine List.filter_congr fun x hx => ?_
        have hxc : ¬ x = c := fun hh => hc (hh ▸ hx)
        rw [hasSpace_congr _ _ _ (getChan_enqueueFrame_ne h c f x hxc)]
      have hoprest' : ∀ x ∈ rest, (getChan (enqueueFrame h c f) x).closed = false := by
        intro x hx
        have hxc : ¬ x = c := fun hh => hc (hh ▸ hx)
        rw [getChan_enqueueFrame_ne h c f x hxc]
        exact hoprest x hx
      rw [ih (enqueueFrame h c f) hrest hoprest', hcong, enqueueFrame_deliveryLog,
        List.filter_cons, hacc]
      simp
    · rw [if_neg hacc]
      have hcong : rest.filter (fun x => hasSpace (evictGlobal h c) x)
          = rest.filter (fun x => hasSpace h x) := by
        refine List.filter_congr fun x hx => ?_
        have hxc : ¬ x = c := fun hh => hc (hh ▸ hx)
        rw [hasSpace_congr _ _ _ (getChan_evictGlobal_ne h c x hxc)]
      have hoprest' : ∀ x ∈ rest, (getChan (evictGlobal h c) x).closed = false := by
        intro x hx
        have hxc : ¬ x = c := fun hh => hc (hh ▸ hx)
        rw [getChan_evictGlobal_ne h c x hxc]
        exact hoprest x hx
      rw [ih (evictGlobal h c) hrest hoprest', hcong, evictGlobal_deliveryLog,
        List.filter_cons, Bool.eq_false_iff.mpr hacc]
      simp

theorem roomFanout_clients_sub (room : String) (skip : Option Conn) (f : Frame) :
    ∀ (ms : List Conn) (h : HubState) (x : Conn),
    x ∈ (roomFanout room skip f h ms).clients → x ∈ h.clients := by
  intro ms
  induction ms with
  | nil => intro h x hx; simpa [roomFanout] using hx
  | cons c rest ih =>
    intro h x hx
    simp only [roomFanout] at hx
    by_cases hs : skip = some c
    · rw [if_pos hs] at hx
      exact ih h x hx
    · rw [if_neg hs] at hx
      by_cases hcl : (getChan h c).closed = true
      · rw [if_pos hcl] at hx
        exact hx
      · rw [if_neg hcl] at hx
        by_cases hacc : hasSpace h c = true
        · rw [if_pos hacc] at hx
          have := ih _ x hx
          rwa [enqueueFrame_clients] at this
        · rw [if_neg hacc] at hx
          have := ih _ x hx
          rw [evictFromRoom_clients] at this
          exact listRemove_subset _ _ _ this

theorem globalFanout_clients_sub (f : Frame) :
    ∀ (ms : List Conn) (h : HubState) (x : Conn),
    x ∈ (globalFanout f h ms).clients → x ∈ h.clients := by
  intro ms
  induction ms with
  | nil => intro h x hx; simpa [globalFanout] using hx
  | cons c rest ih =>
    intro h x hx
    simp only [globalFanout] at hx
    by_cases hcl : (getChan h c).closed = true
    · rw [if_pos hcl] at hx
      exact hx
    · rw [if_neg hcl] at hx
      by_cases hacc : hasSpace h c = true
      · rw [if_pos hacc] at hx
        have := ih _ x hx
        rwa [enqueueFrame_clients] at this
      · rw [if_neg hacc] at hx
        have := ih _ x hx
        rw [evictGlobal_clients] at this
        exact listRemove_subset _ _ _ this

theorem userListRooms_clients_sub :
    ∀ (rl : List (String × List Conn)) (h : HubState) (x : Conn),
    x ∈ (userListRooms h rl).clients → x ∈ h.clients := by
  intro rl
  induction rl with
  | nil => intro h x hx; simpa [userListRooms] using hx
  | cons p rest ih =>
    obtain ⟨room, members⟩ := p
    intro h x hx
    simp only [userListRooms] at hx
    exact roomFanout_clients_sub _ _ _ _ _ _ (ih _ x hx)

theorem broadcastUserList_clients_sub (h : HubState) (x : Conn) :
    x ∈ (broadcastUserList h).clients → x ∈ h.clients :=
  userListRooms_clients_sub h.rooms h x

theorem roomFanout_closes (room : String) (skip : Option Conn) (f : Frame) :
    ∀ (ms : List Conn) (h : HubState), ∃ Δ,
    (roomFanout room skip f h ms).closeLog = h.closeLog ++ Δ ∧
    ∀ x ∈ Δ, x ∉ (roomFanout room skip f h ms).clients := by
  intro ms
  induction ms with
  | nil => intro h; exact ⟨[], by simp [roomFanout], by simp⟩
  | cons c rest ih =>
    intro h
    simp only [roomFanout]
    by_cases hs : skip = some c
    · rw [if_pos hs]
      exact ih h
    · rw [if_neg hs]
      by_cases hcl : (getChan h c).closed = true
      · rw [if_pos hcl]
        exact ⟨[], by simp, by simp⟩
      · rw [if_neg hcl]
        by_cases hacc : hasSpace h c = true
        · rw [if_pos hacc]
          obtain ⟨Δ, h1, h2⟩ := ih (enqueueFrame h c f)
          exact ⟨Δ, by rw [h1, enqueueFrame_closeLog], h2⟩
        · rw [if_neg hacc]
          obtain ⟨Δ, h1, h2⟩ := ih (evictFromRoom h room c)
          refine ⟨c :: Δ, ?_, ?_⟩
          · rw [h1, evictFromRoom_closeLog]
            simp
          · intro x hx
            rcases List.mem_cons.mp hx with hxc | hxm
            · rw [hxc]
              intro hmem
              have hsub := roomFanout_clients_sub room skip f rest (evictFromRoom h room c) c hmem
              rw [evictFromRoom_clients] at hsub
              exact listRemove_not_mem _ _ hsub
            · exact h2 x hxm

theorem globalFanout_closes (f : Frame) :
    ∀ (ms : List Conn) (h : HubState), ∃ Δ,
    (globalFanout f h ms).closeLog = h.closeLog ++ Δ ∧
    ∀ x ∈ Δ, x ∉ (globalFanout f h ms).clients := by
  intro ms
  induction ms with
  | nil => intro h; exact ⟨[], by simp [globalFanout], by simp⟩
  | cons c rest ih =>
    intro h
    simp only [globalFanout]
    by_cases hcl : (getChan h c).closed = true
    · rw [if_pos hcl]
      exact ⟨[], by simp, by simp⟩
    · rw [if_neg hcl]
      by_cases hacc : hasSpace h c = true
      · rw [if_pos hacc]
        obtain ⟨Δ, h1, h2⟩ := ih (enqueueFrame h c f)
        exact ⟨Δ, by rw [h1, enqueueFrame_closeLog], h2⟩
      · rw [if_neg hacc]
        obtain ⟨Δ, h1, h2⟩ := ih (evictGlobal h c)
        refine ⟨c :: Δ, ?_, ?_⟩
        · rw [h1, evictGlobal_closeLog]
          simp
        · intro x hx
          rcases List.mem_cons.mp hx with hxc | hxm
          · rw [hxc]
            intro hmem
            have hsub := globalFanout_clients_sub f rest (evictGlobal h c) c hmem
            rw [evictGlobal_clients] at hsub
            exact listRemove_not_mem _ _ hsub
          · exact h2 x hxm

theorem userListRooms_closes :
    ∀ (rl : List (String × List Conn)) (h : HubState), ∃ Δ,
    (userListRooms h rl).closeLog = h.closeLog ++ Δ ∧
    ∀ x ∈ Δ, x ∉ (userListRooms h rl).clients := by
  intro rl
  induction rl with
  | nil => intro h; exact ⟨[], by simp [userListRooms], by simp⟩
  | cons p rest ih =>
    obtain ⟨room, members⟩ := p
    intro h
    simp only [userListRooms]
    obtain ⟨Δ₁, h1, h2⟩ := roomFanout_closes room none
      (Frame.users (members.map (·.username)) room) members h
    obtain ⟨Δ₂, h3, h4⟩ := ih (userListRoom h room members)
    refine ⟨Δ₁ ++ Δ₂, ?_, ?_⟩
    · rw [h3]
      rw [show (userListRoom h room members).closeLog = h.closeLog ++ Δ₁ from h1]
      simp
    · intro x hx
      rcases List.mem_append.mp hx with hxm | hxm
      · intro hmem
        have hsub := userListRooms_clients_sub rest (userListRoom h room members) x hmem
        exact h2 x hxm hsub
      · exact h4 x hxm

theorem broadcastUserList_closes (h : HubState) : ∃ Δ,
    (broadcastUserList h).closeLog = h.closeLog ++ Δ ∧
    ∀ x ∈ Δ, x ∉ (broadcastUserList h).clients :=
  userListRooms_closes h.rooms h

theorem roomFanout_accept (room : String) (skip : Option Conn) (f : Frame) :
    ∀ (ms : List Conn) (h : HubState), ms.Nodup →
    (∀ c ∈ ms, ¬ skip = some c →
      (getChan h c).closed = false ∧ hasSpace h c = true) →
    (roomFanout room skip f h ms).clients = h.clients ∧
    (roomFanout room skip f h ms).rooms = h.rooms ∧
    (∀ c', getChan (roomFanout room skip f h ms) c' =
      if c' ∈ ms ∧ ¬ skip = some c' then
        ⟨(getChan h c').queue ++ [f], (getChan h c').closed⟩
      else getChan h c') := by
  intro ms
  induction ms with
  | nil =>
    intro h _ _
    refine ⟨rfl, rfl, fun c' => ?_⟩
    simp [roomFanout]
  | cons c rest ih =>
    intro h hnd hacc
    have hc : c ∉ rest := (List.nodup_cons.mp hnd).1
    have hrest : rest.Nodup := (List.nodup_cons.mp hnd).2
    simp only [roomFanout]
    by_cases hs : skip = some c
    · rw [if_pos hs]
      obtain ⟨h1, h2, h3⟩ := ih h hrest (fun x hx => hacc x (List.mem_cons_of_mem _ hx))
      refine ⟨h1, h2, fun c' => ?_⟩
      rw [h3 c']
      by_cases hcc : c' = c
      · subst hcc
        have hns : ¬ ¬ skip = some c' := fun hn => hn hs
        simp [hc, hns]
      · by_cases hmem : c' ∈ rest
        · simp [hmem, hcc]
        · have : c' ∉ c :: rest := by
            intro hx; rcases List.mem_cons.mp hx with h | h
            exacts [hcc h, hmem h]
          simp [hmem, this]
    · rw [if_neg hs]
      obtain ⟨hopc, hspc⟩ := hacc c (List.mem_cons_self _ _) hs
      rw [if_neg (show ¬ (getChan h c).closed = true by
        rw [hopc]; exact Bool.false_ne_true)]
      rw [if_pos hspc]
      have hacc' : ∀ x ∈ rest, ¬ skip = some x →
          (getChan (enqueueFrame h c f) x).closed = false ∧
          hasSpace (enqueueFrame h c f) x = true := by
        intro x hx hxs
        have hxc : ¬ x = c := fun hh => hc (hh ▸ hx)
        rw [getChan_enqueueFrame_ne h c f x hxc,
          hasSpace_congr _ _ _ (getChan_enqueueFrame_ne h c f x hxc)]
        exact hacc x (List.mem_cons_of_mem _ hx) hxs
      obtain ⟨h1, h2, h3⟩ := ih (enqueueFrame h c f) hrest hacc'
      refine ⟨by rw [h1, enqueueFrame_clients], by rw [h2, enqueueFrame_rooms],
        fun c' => ?_⟩
      rw [h3 c']
      by_cases hcc : c' = c
      · subst hcc
        have : c' ∈ c' :: rest := List.mem_cons_self _ _
        simp only [hc, false_and, if_false, this, hs, not_false_iff, true_and, if_true]
        rw [getChan_enqueueFrame_self]
      · rw [getChan_enqueueFrame_ne h c f c' hcc]
        by_cases hmem : c' ∈ rest
        · simp [hmem, hcc]
        · have : c' ∉ c :: rest := by
            intro hx; rcases List.mem_cons.mp hx with h | h
            exacts [hcc h, hmem h]
          simp [hmem, this]

theorem unregRooms_clients (h : HubState) (c : Conn) :
    (unregRooms h c).clients = h.clients := by
  rw [unregRooms]
  cases aget? h.rooms c.room with
  | none => rfl
  | some ms =>
    by_cases hlen : (listRemove ms c).length = 0 <;> simp [hlen]

theorem unregRooms_closeLog (h : HubState) (c : Conn) :
    (unregRooms h c).closeLog = h.closeLog := by
  rw [unregRooms]
  cases aget? h.rooms c.room with
  | none => rfl
  | some ms =>
    by_cases hlen : (listRemove ms c).length = 0 <;> simp [hlen]

theorem mem_pairMap_filter (ms : List Conn) (p : Conn → Bool) (c : Conn) (f : Frame) :
    ((c, f) ∈ (ms.filter p).map (fun x => (x, f))) ↔ (c ∈ ms ∧ p c = true) := by
  constructor
  · intro hx
    obtain ⟨a, ha, he⟩ := List.mem_map.mp hx
    have h1 : a = c := congrArg Prod.fst he
    subst h1
    exact List.mem_filter.mp ha
  · rintro ⟨h1, h2⟩
    exact List.mem_map.mpr ⟨c, List.mem_filter.mpr ⟨h1, h2⟩, rfl⟩

theorem hubStep_closes (h : HubState) (e : HubEvent) : ∃ Δ,
    (hubStep h e).closeLog = h.closeLog ++ Δ ∧
    ∀ x ∈ Δ, x ∉ (hubStep h e).clients := by
  cases e with
  | reg c =>
    have hcl : ∀ hx : HubState, (registerStep hx c) = broadcastUserList
        { hx with
          chans := if (aget? hx.chans c).isSome then hx.chans
                   else hx.chans ++ [(c, ConnState.mk [] false)],
          clients := if c ∈ hx.clients then hx.clients else hx.clients ++ [c],
          rooms := aset hx.rooms c.room
            (if c ∈ roomMembers hx c.room then roomMembers hx c.room
             else roomMembers hx c.room ++ [c]) } := fun _ => rfl
    obtain ⟨Δ, h1, h2⟩ := broadcastUserList_closes
      { h with
        chans := if (aget? h.chans c).isSome then h.chans
                 else h.chans ++ [(c, ConnState.mk [] false)],
        clients := if c ∈ h.clients then h.clients else h.clients ++ [c],
        rooms := aset h.rooms c.room
          (if c ∈ roomMembers h c.room then roomMembers h c.room
           else roomMembers h c.room ++ [c]) }
    exact ⟨Δ, h1, h2⟩
  | unreg c =>
    by_cases hc : c ∈ h.clients
    · have heq : hubStep h (.unreg c) = broadcastUserList
          (closeChan (unregRooms { h with clients := listRemove h.clients c } c) c) := by
        show unregisterStep h c = _
        rw [unregisterStep, if_pos hc]
      obtain ⟨Δ, h1, h2⟩ := broadcastUserList_closes
        (closeChan (unregRooms { h with clients := listRemove h.clients c } c) c)
      refine ⟨c :: Δ, ?_, ?_⟩
      · rw [heq, h1, closeChan_closeLog, unregRooms_closeLog]
        simp
      · intro x hx
        rcases List.mem_cons.mp hx with hxc | hxm
        · rw [heq, hxc]
          intro hmem
          have hsub := broadcastUserList_clients_sub _ _ hmem
          rw [closeChan_clients, unregRooms_clients] at hsub
          exact listRemove_not_mem _ _ hsub
        · rw [heq]
          exact h2 x hxm
    · have heq : hubStep h (.unreg c) = h := by
        show unregisterStep h c = h
        rw [unregisterStep, if_neg hc]
      exact ⟨[], by rw [heq]; simp, by simp⟩
  | bcast s f =>
    cases s with
    | some s =>
      have heq : hubStep h (.bcast (some s) f) = broadcastStep h (some s) f := rfl
      rw [heq]
      cases hms : aget? h.rooms s.room with
      | none =>
        have hst : broadcastStep h (some s) f = h := by simp [broadcastStep, hms]
        exact ⟨[], by rw [hst]; simp, by simp⟩
      | some ms =>
        have hst : broadcastStep h (some s) f = roomFanout s.room (some s) f h ms := by
          simp [broadcastStep, hms]
        rw [hst]
        exact roomFanout_closes s.room (some s) f ms h
    | none =>
      obtain ⟨Δ, h1, h2⟩ := globalFanout_closes f h.clients h
      exact ⟨Δ, h1, h2⟩

/-- C1 (amended): for every Broadcast event processed by the Hub whose
recipients' outbound queues are not closed (a `select` send on a closed
queue panics the hub — a state reachable only through the room-map leak
of C8): a sender-attributed event is delivered exactly to those other
members of the sender's room, at broadcast time, whose outbound queue is
below capacity — and never to the sender itself; a member with a full
queue is evicted instead of receiving it.  A senderless event is
delivered exactly to the connected clients with a non-full queue,
regardless of room. -/
theorem C1_broadcast_delivery (h : HubState) (f : Frame) :
    (∀ s : Conn, (roomMembers h s.room).Nodup →
      (∀ x ∈ roomMembers h s.room, ¬ x = s → (getChan h x).closed = false) →
      ∀ c : Conn,
        ((c, f) ∈ stepDeliveries (broadcastStep h (some s) f) h ↔
          c ∈ roomMembers h s.room ∧ ¬ c = s ∧
            (getChan h c).queue.length < capacity)) ∧
    (h.clients.Nodup →
      (∀ x ∈ h.clients, (getChan h x).closed = false) →
      ∀ c : Conn,
        ((c, f) ∈ stepDeliveries (broadcastStep h none f) h ↔
          c ∈ h.clients ∧ (getChan h c).queue.length < capacity)) := by
  constructor
  · intro s hnd hop c
    cases hms : aget? h.rooms s.room with
    | none =>
      have hempty : roomMembers h s.room = [] := by simp [roomMembers, hms]
      have hstep : broadcastStep h (some s) f = h := by simp [broadcastStep, hms]
      rw [hstep, hempty]
      simp [stepDeliveries, List.drop_length]
    | some ms =>
      have hmem : roomMembers h s.room = ms := by simp [roomMembers, hms]
      rw [hmem] at hnd hop ⊢
      have hstep : broadcastStep h (some s) f = roomFanout s.room (some s) f h ms := by
        simp [broadcastStep, hms]
      have hop' : ∀ x ∈ ms, ¬ (some s : Option Conn) = some x →
          (getChan h x).closed = false := by
        intro x hx hxs
        exact hop x hx (fun hxx => hxs (by rw [hxx]))
      rw [hstep, stepDeliveries, roomFanout_log s.room (some s) f ms h hnd hop',
        List.drop_left, mem_pairMap_filter]
      constructor
      · rintro ⟨h1, h2⟩
        rw [Bool.and_eq_true, decide_eq_true_eq] at h2
        refine ⟨h1, fun hcs => h2.1 (by rw [hcs]), ?_⟩
        have := h2.2
        rw [hasSpace, decide_eq_true_eq] at this
        exact this
      · rintro ⟨h1, h2, h3⟩
        refine ⟨h1, ?_⟩
        rw [Bool.and_eq_true, decide_eq_true_eq]
        refine ⟨fun hsc => h2 ?_, ?_⟩
        · injection hsc with hh
          rw [hh]
        · rw [hasSpace, decide_eq_true_eq]
          exact h3
  · intro hnd hop c
    have hstep : broadcastStep h none f = globalFanout f h h.clients := rfl
    rw [hstep, stepDeliveries, globalFanout_log f h.clients h hnd hop,
      List.drop_left, mem_pairMap_filter]
    rw [hasSpace, decide_eq_true_eq]

/-- C1, as stated, is false: in `hFull` (reached from the empty hub by the
events of `fillTrace`), A is a member of B's room "general" at broadcast
time, yet B's next room broadcast is not delivered to A — A's queue is
full, so A is evicted instead. -/
theorem C1_full_queue_counterexample :
    connA ∈ roomMembers hFull connB.room ∧ ¬ connA = connB ∧
    (connA, Frame.message lateMsg) ∉
      stepDeliveries (broadcastStep hFull (some connB) (Frame.message lateMsg)) hFull := by
  decide

/-- Witness for C1: in the three-client hub, B's room broadcast is
delivered to A. -/
theorem C1_broadcast_witness :
    (connA, pingFrame) ∈ stepDeliveries (broadcastStep hTrio (some connB) pingFrame) hTrio :=
  ((C1_broadcast_delivery hTrio pingFrame).1 connB (by decide) (by decide) connA).mpr
    (by decide)

/-- C8 is violated by the code: after `fillTrace` (A, B registered in
"general", A's queue full), a senderless broadcast evicts A — A's
channel is closed and A is deleted from the client set — yet A, though
registered-and-now-unregistered, is still listed as a member of room
"general" in the Hub's room map. -/
theorem C8_room_map_leak :
    connA ∈ hFull.clients ∧ connA ∈ roomMembers hFull "general" ∧
    connA ∉ hLeak.clients ∧ (getChan hLeak connA).closed = true ∧
    connA ∈ roomMembers hLeak "general" := by
  decide

/-- C9: an unregister request for a connection no longer in the Hub's
client map is a complete no-op (the state, including the close log, is
unchanged, so the queue is not closed a second time); after processing
an unregister the connection is out of the client map, so unregister is
idempotent; and every connection whose channel a hub step closes —
including forced evictions during broadcasts and user-list sends — is
absent from the client map afterwards, so a later unregister request for
it is again a no-op. -/
theorem C9_unregister_idempotent :
    (∀ (h : HubState) (c : Conn), c ∉ h.clients → unregisterStep h c = h) ∧
    (∀ (h : HubState) (c : Conn), c ∉ (unregisterStep h c).clients) ∧
    (∀ (h : HubState) (c : Conn),
      unregisterStep (unregisterStep h c) c = unregisterStep h c) ∧
    (∀ (h : HubState) (e : HubEvent) (x : Conn),
      x ∈ (hubStep h e).closeLog.drop h.closeLog.length →
        x ∉ (hubStep h e).clients) := by
  have hno : ∀ (h : HubState) (c : Conn), c ∉ h.clients → unregisterStep h c = h := by
    intro h c hc
    rw [unregisterStep, if_neg hc]
  have hout : ∀ (h : HubState) (c : Conn), c ∉ (unregisterStep h c).clients := by
    intro h c
    by_cases hc : c ∈ h.clients
    · rw [unregisterStep, if_pos hc]
      intro hmem
      have hsub := broadcastUserList_clients_sub _ _ hmem
      rw [closeChan_clients, unregRooms_clients] at hsub
      exact listRemove_not_mem _ _ hsub
    · rw [hno h c hc]
      exact hc
  refine ⟨hno, hout, fun h c => hno _ _ (hout h c), ?_⟩
  intro h e x hx
  obtain ⟨Δ, h1, h2⟩ := hubStep_closes h e
  rw [h1, List.drop_left] at hx
  exact h2 x hx

/-- Witness for C9: in the three-client hub, unregistering a connection
that was never registered there changes nothing, and after unregistering
A, A is gone from the client map. -/
theorem C9_unregister_witness :
    unregisterStep hTrio ⟨7, "Z", "general"⟩ = hTrio ∧
    connA ∉ (unregisterStep hTrio connA).clients :=
  ⟨C9_unregister_idempotent.1 hTrio ⟨7, "Z", "general"⟩ (by decide),
   C9_unregister_idempotent.2.1 hTrio connA⟩

-- -------------------- Claims about the message store --------------------

/-- C2 is violated by the code on the durable backend: after a single
message sent from room "other" is saved through the SQL path (which drops
the room), `ListRecent(…, "general")` returns that message — nonempty,
and no returned message belongs to room "general".  The in-memory branch
filters by room, but `dbSaveMessage` persists no room column and
`dbLoadRecentMessages` ignores its caller's room argument entirely. -/
theorem C2_db_ignores_room :
    loadRecentMessagesG gDbOne 200 "general" ≠ [] ∧
    ∀ m ∈ loadRecentMessagesG gDbOne 200 "general", ¬ m.room = "general" := by
  decide

/-- C4: over every sequence of store operations (saves, edits, deletes,
reaction toggles) on a fresh store instance of either backend, the ids
returned by the `save` calls are pairwise strictly increasing — hence
unique and never reused, even after deletions. -/
theorem C4_save_ids_strictly_increasing (b : Bool) (ops : List StoreOp) :
    ((runStoreOps (initG b) ops).2).Pairwise (· < ·) :=
  (runStoreOps_ids ops (initG b)).1

/-- C3, as stated, is false: a client joining a room with no stored
messages receives no history frame at all (`serveWs` only writes the
frame when the loaded history is nonempty). -/
theorem C3_empty_history_counterexample :
    (serveWsJoin (initG false) {} connA).2 = [] := by
  decide

/-- C3 (amended): on join the server sends at most one history frame —
exactly one when the room has stored messages and none when it has none.
When sent, the frame holds the `min 200 len` most recent messages of the
room (a suffix of the room's message sequence), in ascending id order
whenever the store's ids are ascending.  In particular, with ids 1..250
stored in "general", a new joiner's frame holds exactly ids 51..250,
ascending. -/
theorem C3_history_on_join :
    (∀ (g : GlobalState) (h : HubState) (c : Conn), g.useDB = false →
      (g.mem.messagesList.filter (fun m => decide (m.room = c.room)) = [] →
        (serveWsJoin g h c).2 = []) ∧
      (g.mem.messagesList.filter (fun m => decide (m.room = c.room)) ≠ [] →
        ∃ hist,
          (serveWsJoin g h c).2 = [Frame.history hist] ∧
          hist.length =
            min 200 (g.mem.messagesList.filter (fun m => decide (m.room = c.room))).length ∧
          hist <:+ g.mem.messagesList.filter (fun m => decide (m.room = c.room)) ∧
          ((msgIds g.mem.messagesList).Pairwise (· < ·) →
            (msgIds hist).Pairwise (· < ·)))) ∧
    (∃ hist250,
      (serveWsJoin (GlobalState.mk store250 ⟨[], 1, 0⟩ false) {} connA).2 =
        [Frame.history hist250] ∧
      msgIds hist250 = (List.range' 51 200).map Int.ofNat) := by
  constructor
  · intro g h c hdb
    have hload : loadRecentMessagesG g 200 c.room = loadRecentMessagesMem g.mem 200 c.room := by
      simp [loadRecentMessagesG, hdb]
    have hchar : loadRecentMessagesMem g.mem 200 c.room =
        (g.mem.messagesList.filter (fun m => decide (m.room = c.room))).drop
          ((g.mem.messagesList.filter (fun m => decide (m.room = c.room))).length -
            min 200 (g.mem.messagesList.filter (fun m => decide (m.room = c.room))).length) := by
      rw [loadRecentMessagesMem]
      by_cases hlen :
          (200 : Int) > (g.mem.messagesList.filter (fun m => decide (m.room = c.room))).length
      · have hcond : ((200 : Int) ≤ 0 ∨
            (200 : Int) > (g.mem.messagesList.filter (fun m => decide (m.room = c.room))).length) := Or.inr hlen
        rw [if_pos hcond]
        have hlt : (g.mem.messagesList.filter (fun m => decide (m.room = c.room))).length < 200 := by
          exact_mod_cast hlen
        have hmin : min 200 (g.mem.messagesList.filter (fun m => decide (m.room = c.room))).length
            = (g.mem.messagesList.filter (fun m => decide (m.room = c.room))).length := by
          omega
        rw [hmin, Int.toNat_natCast]
      · have hcond : ¬ ((200 : Int) ≤ 0 ∨
            (200 : Int) > (g.mem.messagesList.filter (fun m => decide (m.room = c.room))).length) := by
          push_neg
          exact ⟨by norm_num, le_of_not_lt hlen⟩
        rw [if_neg hcond]
        have h200 : (200 : ℕ) ≤ (g.mem.messagesList.filter (fun m => decide (m.room = c.room))).length := by
          exact_mod_cast le_of_not_lt hlen
        have hmin : min 200 (g.mem.messagesList.filter (fun m => decide (m.room = c.room))).length
            = 200 := by
          omega
        rw [hmin]
        rfl
    constructor
    · intro hempty
      have : loadRecentMessagesG g 200 c.room = [] := by
        rw [hload, hchar, hempty]
        simp
      simp [serveWsJoin, this]
    · intro hne
      have hpos : 0 <
          (g.mem.messagesList.filter (fun m => decide (m.room = c.room))).length :=
        List.length_pos.mpr hne
      have hlen2 : (loadRecentMessagesG g 200 c.room).length =
          min 200 (g.mem.messagesList.filter (fun m => decide (m.room = c.room))).length := by
        rw [hload, hchar, List.length_drop]
        omega
      have hnem : loadRecentMessagesG g 200 c.room ≠ [] := by
        intro hc
        rw [hc] at hlen2
        simp at hlen2
        omega
      refine ⟨loadRecentMessagesG g 200 c.room, ?_, hlen2, ?_, ?_⟩
      · simp [serveWsJoin, hnem]
      · rw [hload, hchar]
        exact List.drop_suffix _ _
      · intro hpw
        have hsub : List.Sublist (loadRecentMessagesG g 200 c.room) g.mem.messagesList := by
          rw [hload, hchar]
          exact (List.drop_sublist _ _).trans (List.filter_sublist _)
        have hsub2 : List.Sublist (msgIds (loadRecentMessagesG g 200 c.room))
            (msgIds g.mem.messagesList) := List.Sublist.map _ hsub
        exact hpw.sublist hsub2
  · refine ⟨loadRecentMessagesMem store250 200 "general", ?_, by decide⟩
    decide

/-- Witness for C3 (amended): joining "general" over the two-message store
produces exactly one history frame with the stated shape. -/
theorem C3_history_witness :
    ∃ hist,
      (serveWsJoin gTwo {} connA).2 = [Frame.history hist] ∧
      hist.length =
        min 200 (gTwo.mem.messagesList.filter (fun m => decide (m.room = connA.room))).length ∧
      hist <:+ gTwo.mem.messagesList.filter (fun m => decide (m.room = connA.room)) ∧
      ((msgIds gTwo.mem.messagesList).Pairwise (· < ·) →
        (msgIds hist).Pairwise (· < ·)) :=
  (C3_history_on_join.1 gTwo {} connA rfl).2 (by decide)

/-- C6: on the active backend, `EditText`/`Delete` of an id that is not
present report failure and leave the whole state unchanged; for a present
id (ids being unique, as the store guarantees), `EditText` rewrites
exactly that message's text and `Delete` removes exactly that message,
leaving every other message, their ids and their order unchanged —
on the transient and on the durable backend alike. -/
theorem C6_edit_delete_exact (g : GlobalState) (i : Int) (txt : String) :
    (hasIdG g i = false →
      editMessageTextG g i txt = (false, g) ∧ deleteMessageByIDG g i = (false, g)) ∧
    (g.useDB = false → memHasId g.mem.messagesList i = true →
      (msgIds g.mem.messagesList).Nodup →
      ∃ pre m post,
        g.mem.messagesList = pre ++ m :: post ∧ m.id = i ∧
        memHasId pre i = false ∧ memHasId post i = false ∧
        editMessageTextG g i txt =
          (true, { g with mem :=
            { g.mem with messagesList := pre ++ { m with text := txt } :: post } }) ∧
        deleteMessageByIDG g i =
          (true, { g with mem := { g.mem with messagesList := pre ++ post } })) ∧
    (g.useDB = true → rowsHasId g.db.rows i = true →
      (rowIds g.db.rows).Nodup →
      ∃ pre r post,
        g.db.rows = pre ++ r :: post ∧ r.id = i ∧
        rowsHasId pre i = false ∧ rowsHasId post i = false ∧
        editMessageTextG g i txt =
          (true, { g with db :=
            { g.db with rows := pre ++ { r with text := txt } :: post } }) ∧
        deleteMessageByIDG g i =
          (true, { g with db := { g.db with rows := pre ++ post } })) := by
  refine ⟨?_, ?_, ?_⟩
  · intro hno
    by_cases hdb : g.useDB
    · rw [hasIdG, if_pos hdb] at hno
      constructor
      · rw [editMessageTextG, if_pos hdb, dbEditMessageText, hno]
        simp
      · rw [deleteMessageByIDG, if_pos hdb, dbDeleteMessageByID, hno]
        simp
    · rw [hasIdG, if_neg hdb] at hno
      constructor
      · rw [editMessageTextG, if_neg hdb, editMessageTextMem, editLoop_none _ _ _ hno]
      · rw [deleteMessageByIDG, if_neg hdb, deleteMessageByIDMem, deleteLoop_none _ _ hno]
  · intro hdb hpres hnd
    obtain ⟨pre, m, post, hl, hm, hpre⟩ := memHasId_decomp _ _ hpres
    have hids : msgIds (pre ++ m :: post) = msgIds pre ++ m.id :: msgIds post := by
      simp [msgIds]
    rw [hl, hids] at hnd
    have hpostid : m.id ∉ msgIds post :=
      (List.nodup_cons.mp (List.nodup_append.mp hnd).2.1).1
    have hpost : memHasId post i = false := by
      cases hmb : memHasId post i with
      | false => rfl
      | true =>
        exact absurd (hm ▸ (memHasId_iff_mem_msgIds post i).mp hmb) hpostid
    refine ⟨pre, m, post, hl, hm, hpre, hpost, ?_, ?_⟩
    · rw [editMessageTextG, if_neg (by rw [hdb]; exact Bool.false_ne_true),
        editMessageTextMem, hl, editLoop_append pre m post i txt hpre hm]
    · rw [deleteMessageByIDG, if_neg (by rw [hdb]; exact Bool.false_ne_true),
        deleteMessageByIDMem, hl, deleteLoop_append pre m post i hpre hm]
  · intro hdb hpres hnd
    obtain ⟨pre, r, post, hl, hr, hpre⟩ := rowsHasId_decomp _ _ hpres
    have hids : rowIds (pre ++ r :: post) = rowIds pre ++ r.id :: rowIds post := by
      simp [rowIds]
    rw [hl, hids] at hnd
    have hpostid : r.id ∉ rowIds post :=
      (List.nodup_cons.mp (List.nodup_append.mp hnd).2.1).1
    have hpost : rowsHasId post i = false := by
      cases hmb : rowsHasId post i with
      | false => rfl
      | true =>
        exact absurd (hr ▸ (rowsHasId_iff_mem_rowIds post i).mp hmb) hpostid
    have hhas : rowsHasId g.db.rows i = true := hpres
    refine ⟨pre, r, post, hl, hr, hpre, hpost, ?_, ?_⟩
    · rw [editMessageTextG, if_pos hdb, dbEditMessageText, hhas]
      have hmap : (g.db.rows).map (fun x => if x.id = i then { x with text := txt } else x)
          = pre ++ { r with text := txt } :: post := by
        rw [hl, List.map_append, List.map_cons, if_pos hr,
          rowsMap_noid pre i txt hpre, rowsMap_noid post i txt hpost]
      rw [hmap]
      simp
    · rw [deleteMessageByIDG, if_pos hdb, dbDeleteMessageByID, hhas]
      have hfil : (g.db.rows).filter (fun x => decide (x.id ≠ i)) = pre ++ post := by
        rw [hl, List.filter_append, List.filter_cons]
        have : (decide (r.id ≠ i)) = false := by simp [hr]
        rw [this]
        simp only [Bool.false_eq_true, if_false]
        rw [rowsFilter_noid pre i hpre, rowsFilter_noid post i hpost]
      rw [hfil]
      simp

/-- Witness for C6: editing the unknown id 99 over the two-message store
fails and changes nothing; the known id 1 admits the exact-decomposition
conclusion. -/
theorem C6_edit_delete_witness :
    (editMessageTextG gTwo 99 "x" = (false, gTwo) ∧
      deleteMessageByIDG gTwo 99 = (false, gTwo)) ∧
    (∃ pre m post,
      gTwo.mem.messagesList = pre ++ m :: post ∧ m.id = 1 ∧
      memHasId pre 1 = false ∧ memHasId post 1 = false ∧
      editMessageTextG gTwo 1 "x" =
        (true, { gTwo with mem :=
          { gTwo.mem with messagesList := pre ++ { m with text := "x" } :: post } }) ∧
      deleteMessageByIDG gTwo 1 =
        (true, { gTwo with mem := { gTwo.mem with messagesList := pre ++ post } })) :=
  ⟨(C6_edit_delete_exact gTwo 99 "x").1 (by decide),
   (C6_edit_delete_exact gTwo 1 "x").2.1 rfl (by decide) (by decide)⟩

/-- C7: for a message id present in the (in-memory) store and a reactor
list in which the user appears at most once — the invariant the toggle
itself maintains — toggling the same (message, emoji, user) twice
succeeds both times and restores the original reactor set of that
(message, emoji) pair. -/
theorem C7_reaction_toggle_involution (g : GlobalState) (i : Int) (e u : String)
    (hpres : memHasId g.mem.messagesList i = true)
    (hcount : (reactorsOf g.mem.messagesList i e).count u ≤ 1) :
    (toggleReactionG g i e u).1 = true ∧
    (toggleReactionG (toggleReactionG g i e u).2 i e u).1 = true ∧
    ∀ x, (x ∈ reactorsOf (toggleReactionG (toggleReactionG g i e u).2 i e u).2.mem.messagesList i e ↔
          x ∈ reactorsOf g.mem.messagesList i e) := by
  obtain ⟨pre, m, post, hl, hm, hpre⟩ := memHasId_decomp _ _ hpres
  have hre0 : reactorsOf g.mem.messagesList i e = rGet m.reactions e := by
    rw [hl]
    exact reactorsOf_append pre m post i e hpre hm
  have hid1 : (toggleMsg m e u).id = i := by rw [toggleMsg_id, hm]
  have hid2 : (toggleMsg (toggleMsg m e u) e u).id = i := by
    rw [toggleMsg_id, hid1]
  have ht1 : toggleReactionG g i e u =
      (true, { g with mem :=
        { g.mem with messagesList := pre ++ toggleMsg m e u :: post } }) := by
    rw [toggleReactionG, toggleReactionMem, hl, toggleLoop_append pre m post i e u hpre hm]
  have ht2 : toggleReactionG (toggleReactionG g i e u).2 i e u =
      (true, { g with mem :=
        { g.mem with messagesList := pre ++ toggleMsg (toggleMsg m e u) e u :: post } }) := by
    rw [ht1]
    rw [toggleReactionG, toggleReactionMem]
    rw [show ({ g with mem :=
        { g.mem with messagesList := pre ++ toggleMsg m e u :: post } } : GlobalState).mem.messagesList
      = pre ++ toggleMsg m e u :: post from rfl]
    rw [toggleLoop_append pre (toggleMsg m e u) post i e u hpre hid1]
  refine ⟨by rw [ht1], by rw [ht2], fun x => ?_⟩
  have hfin : reactorsOf (toggleReactionG (toggleReactionG g i e u).2 i e u).2.mem.messagesList i e
      = rGet (toggleMsg (toggleMsg m e u) e u).reactions e := by
    rw [ht2]
    exact reactorsOf_append pre _ post i e hpre hid2
  rw [hfin, hre0, rGet_toggleMsg, rGet_toggleMsg]
  exact uToggle_twice_mem (rGet m.reactions e) u (hre0 ▸ hcount) x

/-- Witness for C7: toggling B's ":)" reaction on message 1 twice
restores the reactor set. -/
theorem C7_reaction_witness :
    (toggleReactionG gReact 1 ":)" "B").1 = true ∧
    (toggleReactionG (toggleReactionG gReact 1 ":)" "B").2 1 ":)" "B").1 = true ∧
    ∀ x, (x ∈ reactorsOf
            (toggleReactionG (toggleReactionG gReact 1 ":)" "B").2 1 ":)" "B").2.mem.messagesList
            1 ":)" ↔
          x ∈ reactorsOf gReact.mem.messagesList 1 ":)") :=
  C7_reaction_toggle_involution gReact 1 ":)" "B" (by decide) (by decide)

/-- C10: `toggleReaction` reads and mutates only the in-memory message
list — it never dispatches to the durable backend, so the database rows
(and the backend flag) are untouched by any toggle; when the durable
backend is active, `saveMessage` leaves the in-memory list untouched, so
a message saved only through the database is invisible to the toggle:
the toggle finds no matching id, reports failure, changes nothing, and
the read pump consequently broadcasts no reaction event. -/
theorem C10_toggle_never_touches_db :
    (∀ (g : GlobalState) (i : Int) (e u : String),
      (toggleReactionG g i e u).2.db = g.db ∧
      (toggleReactionG g i e u).2.useDB = g.useDB) ∧
    (∀ (g : GlobalState) (m : Message), g.useDB = true →
      (saveMessageG g m).2.mem = g.mem) ∧
    (∀ (g : GlobalState) (i : Int) (e u : String),
      memHasId g.mem.messagesList i = false →
      toggleReactionG g i e u = (false, g)) ∧
    (∀ (g : GlobalState) (c : Conn) (ts : String) (inc : Incoming),
      inc.type = "reaction" → inc.text = "" → inc.fileUrl = "" →
      memHasId g.mem.messagesList inc.messageId = false →
      readPumpStep g c inc ts = ⟨g, [], []⟩) := by
  have htog : ∀ (g : GlobalState) (i : Int) (e u : String),
      memHasId g.mem.messagesList i = false →
      toggleReactionG g i e u = (false, g) := by
    intro g i e u hno
    rw [toggleReactionG, toggleReactionMem, toggleLoop_none _ _ _ _ hno]
  refine ⟨?_, ?_, htog, ?_⟩
  · intro g i e u
    rw [toggleReactionG, toggleReactionMem]
    cases toggleLoop g.mem.messagesList i e u <;> simp
  · intro g m hdb
    simp [saveMessageG, hdb]
  · intro g c ts inc htype htext hfile hno
    rw [readPumpStep]
    rw [if_neg (fun hc : inc.type = "typing" => by
      rw [htype] at hc
      exact absurd hc (by decide))]
    by_cases hcond : 0 < inc.messageId ∧ ¬ inc.emoji = ""
    · rw [if_pos ⟨htype, hcond.1, hcond.2⟩, htog g inc.messageId inc.emoji c.username hno]
      rfl
    · rw [if_neg (fun hc => hcond ⟨hc.2.1, hc.2.2⟩), if_pos ⟨htext, hfile⟩]

/-- Witness for C10: with the durable backend active and one message
saved only in the database (`gDbOne`), toggling a reaction on its id
leaves the database unchanged, fails, and produces no broadcast. -/
theorem C10_toggle_witness :
    (toggleReactionG gDbOne 1 ":)" "A").2.db = gDbOne.db ∧
    toggleReactionG gDbOne 1 ":)" "A" = (false, gDbOne) ∧
    readPumpStep gDbOne connA incReaction "t" = ⟨gDbOne, [], []⟩ := by
  refine ⟨(C10_toggle_never_touches_db.1 gDbOne 1 ":)" "A").1,
    C10_toggle_never_touches_db.2.2.1 gDbOne 1 ":)" "A" (by decide),
    C10_toggle_never_touches_db.2.2.2 gDbOne connA "t" incReaction rfl rfl rfl (by decide)⟩

theorem roomMembers_of_rooms_eq (h h' : HubState) (r : String)
    (he : h'.rooms = h.rooms) : roomMembers h' r = roomMembers h r := by
  rw [roomMembers, roomMembers, he]

theorem broadcastStep_some_spec (h : HubState) (s : Conn) (f : Frame)
    (hnd : (roomMembers h s.room).Nodup)
    (hacc : ∀ x ∈ roomMembers h s.room, ¬ x = s →
      (getChan h x).closed = false ∧ (getChan h x).queue.length < capacity) :
    (broadcastStep h (some s) f).clients = h.clients ∧
    (broadcastStep h (some s) f).rooms = h.rooms ∧
    (broadcastStep h (some s) f).deliveryLog = h.deliveryLog ++
      ((roomMembers h s.room).filter (fun x => decide (¬ some s = some x))).map
        (fun x => (x, f)) ∧
    (∀ x, getChan (broadcastStep h (some s) f) x =
      if x ∈ roomMembers h s.room ∧ ¬ some s = some x then
        ⟨(getChan h x).queue ++ [f], (getChan h x).closed⟩
      else getChan h x) := by
  cases hms : aget? h.rooms s.room with
  | none =>
    have hempty : roomMembers h s.room = [] := by simp [roomMembers, hms]
    have hstep : broadcastStep h (some s) f = h := by simp [broadcastStep, hms]
    rw [hstep, hempty]
    refine ⟨rfl, rfl, by simp, fun x => ?_⟩
    simp
  | some ms =>
    have hmem : roomMembers h s.room = ms := by simp [roomMembers, hms]
    have hstep : broadcastStep h (some s) f = roomFanout s.room (some s) f h ms := by
      simp [broadcastStep, hms]
    rw [hmem] at hnd hacc ⊢
    have hacc' : ∀ x ∈ ms, ¬ (some s : Option Conn) = some x →
        (getChan h x).closed = false ∧ hasSpace h x = true := by
      intro x hx hxs
      obtain ⟨h1, h2⟩ := hacc x hx (fun hxx => hxs (by rw [hxx]))
      exact ⟨h1, by rw [hasSpace, decide_eq_true_eq]; exact h2⟩
    have hop' : ∀ x ∈ ms, ¬ (some s : Option Conn) = some x →
        (getChan h x).closed = false :=
      fun x hx hxs => (hacc' x hx hxs).1
    obtain ⟨h1, h2, h3⟩ := roomFanout_accept s.room (some s) f ms h hnd hacc'
    have hlog := roomFanout_log s.room (some s) f ms h hnd hop'
    have hfc : ms.filter (fun x => decide (¬ (some s : Option Conn) = some x) && hasSpace h x)
        = ms.filter (fun x => decide (¬ (some s : Option Conn) = some x)) := by
      refine List.filter_congr fun x hx => ?_
      by_cases hxs : (some s : Option Conn) = some x
      · simp [hxs]
      · simp [hxs, (hacc' x hx hxs).2]
    rw [hstep]
    exact ⟨h1, h2, by rw [hlog, hfc], h3⟩

theorem pair_mem_filterMap (ms : List Conn) (p : Conn → Bool) (x : Conn)
    (fr f : Frame) (hx : (x, fr) ∈ (ms.filter p).map (fun a => (a, f))) :
    x ∈ ms ∧ p x = true := by
  obtain ⟨a, ha, he⟩ := List.mem_map.mp hx
  have h1 : a = x := congrArg Prod.fst he
  subst h1
  exact List.mem_filter.mp ha

/-- C5: a client-originated chat send carrying a correlation id is
persisted through the Message Store (here: the transient backend, one new
message carrying the freshly assigned durable id appended to the list);
the ack binding the correlation id to that durable id is the only frame
written directly back to the sender's socket; and once the hub processes
the resulting broadcasts, the persisted message is delivered exactly to
the other members of the sender's room (none of the step's deliveries —
message or typing-stop — reaches the sender or any member of another
room).  Queues are assumed open with room for the two frames, so no
recipient is evicted. -/
theorem C5_chat_send_pipeline (g : GlobalState) (h : HubState) (c : Conn)
    (inc : Incoming) (ts : String)
    (hdb : g.useDB = false)
    (ht1 : ¬ inc.type = "typing")
    (ht2 : ¬ inc.type = "reaction")
    (htext : ¬ inc.text = "")
    (hcid : 0 < inc.clientId)
    (hnd : (roomMembers h c.room).Nodup)
    (hcap : ∀ x ∈ roomMembers h c.room, ¬ x = c →
      (getChan h x).closed = false ∧ (getChan h x).queue.length + 2 ≤ capacity) :
    ∃ (i : Int) (m : Message),
      (readPumpStep g c inc ts).g.mem.messagesList = g.mem.messagesList ++ [m] ∧
      m.id = i ∧ m.username = c.username ∧ m.text = inc.text ∧ m.room = c.room ∧
      (readPumpStep g c inc ts).direct = [Frame.ack inc.clientId i] ∧
      (∀ x, ((x, Frame.message m) ∈
          stepDeliveries
            (runHub h ((readPumpStep g c inc ts).events.map
              (fun ev => HubEvent.bcast ev.1 ev.2))) h ↔
          x ∈ roomMembers h c.room ∧ ¬ x = c)) ∧
      (∀ x fr, ((x, fr) ∈
          stepDeliveries
            (runHub h ((readPumpStep g c inc ts).events.map
              (fun ev => HubEvent.bcast ev.1 ev.2))) h) →
          x ∈ roomMembers h c.room ∧ ¬ x = c) := by
  have hnr : ¬ (inc.type = "reaction" ∧ inc.messageId > 0 ∧ inc.emoji ≠ "") :=
    fun hc => ht2 hc.1
  have hns : ¬ (inc.text = "" ∧ inc.fileUrl = "") := fun hc => htext hc.1
  have hev : (readPumpStep g c inc ts).events =
      [(some c, Frame.typing c.username false),
       (some c, Frame.message
         { id := g.mem.nextMessageID, username := c.username, text := inc.text,
           timestamp := ts, reactions := [], fileUrl := inc.fileUrl,
           fileType := inc.fileType, fileName := inc.fileName, room := c.room })] := by
    simp [readPumpStep, ht1, hnr, hns, saveMessageG, hdb, saveMessageMem]
  have hacc1 : ∀ x ∈ roomMembers h c.room, ¬ x = c →
      (getChan h x).closed = false ∧ (getChan h x).queue.length < capacity := by
    intro x hx hxc
    obtain ⟨hcl, hlen⟩ := hcap x hx hxc
    exact ⟨hcl, by omega⟩
  obtain ⟨hc1, hc2, hc3, hc4⟩ :=
    broadcastStep_some_spec h c (Frame.typing c.username false) hnd hacc1
  have hmem1 : roomMembers (broadcastStep h (some c) (Frame.typing c.username false)) c.room
      = roomMembers h c.room :=
    roomMembers_of_rooms_eq _ _ _ hc2
  have hnd1 : (roomMembers (broadcastStep h (some c) (Frame.typing c.username false)) c.room).Nodup := by
    rw [hmem1]; exact hnd
  have hacc2 : ∀ x ∈ roomMembers (broadcastStep h (some c) (Frame.typing c.username false)) c.room,
      ¬ x = c →
      (getChan (broadcastStep h (some c) (Frame.typing c.username false)) x).closed = false ∧
      (getChan (broadcastStep h (some c) (Frame.typing c.username false)) x).queue.length
        < capacity := by
    rw [hmem1]
    intro x hx hxc
    obtain ⟨hcl, hlen⟩ := hcap x hx hxc
    have hcond : x ∈ roomMembers h c.room ∧ ¬ (some c : Option Conn) = some x :=
      ⟨hx, fun hxx => hxc (by injection hxx with hh; rw [hh])⟩
    constructor
    · rw [hc4 x, if_pos hcond]
      exact hcl
    · rw [hc4 x, if_pos hcond]
      simp only [List.length_append, List.length_singleton]
      omega
  obtain ⟨hd1, hd2, hd3, hd4⟩ :=
    broadcastStep_some_spec (broadcastStep h (some c) (Frame.typing c.username false)) c
      (Frame.message
        { id := g.mem.nextMessageID, username := c.username, text := inc.text,
          timestamp := ts, reactions := [], fileUrl := inc.fileUrl,
          fileType := inc.fileType, fileName := inc.fileName, room := c.room })
      hnd1 hacc2
  have hdel : stepDeliveries
      (runHub h ((readPumpStep g c inc ts).events.map
        (fun ev => HubEvent.bcast ev.1 ev.2))) h =
      ((roomMembers h c.room).filter (fun x => decide (¬ (some c : Option Conn) = some x))).map
        (fun x => (x, Frame.typing c.username false)) ++
      ((roomMembers h c.room).filter (fun x => decide (¬ (some c : Option Conn) = some x))).map
        (fun x => (x, Frame.message
          { id := g.mem.nextMessageID, username := c.username, text := inc.text,
            timestamp := ts, reactions := [], fileUrl := inc.fileUrl,
            fileType := inc.fileType, fileName := inc.fileName, room := c.room })) := by
    rw [hev]
    rw [show runHub h
        ([(some c, Frame.typing c.username false),
          (some c, Frame.message
            { id := g.mem.nextMessageID, username := c.username, text := inc.text,
              timestamp := ts, reactions := [], fileUrl := inc.fileUrl,
              fileType := inc.fileType, fileName := inc.fileName, room := c.room })].map
          (fun ev => HubEvent.bcast ev.1 ev.2)) =
        broadcastStep
          (broadcastStep h (some c) (Frame.typing c.username false)) (some c)
          (Frame.message
            { id := g.mem.nextMessageID, username := c.username, text := inc.text,
              timestamp := ts, reactions := [], fileUrl := inc.fileUrl,
              fileType := inc.fileType, fileName := inc.fileName, room := c.room }) from rfl]
    rw [stepDeliveries, hd3, hc3, hmem1, List.append_assoc, List.drop_left]
  have honly : ∀ x fr, ((x, fr) ∈
      stepDeliveries
        (runHub h ((readPumpStep g c inc ts).events.map
          (fun ev => HubEvent.bcast ev.1 ev.2))) h) →
      x ∈ roomMembers h c.room ∧ ¬ x = c := by
    rw [hdel]
    intro x fr hx
    rcases List.mem_append.mp hx with hx1 | hx1 <;>
    · have hpm := pair_mem_filterMap _ _ _ _ _ hx1
      refine ⟨hpm.1, ?_⟩
      have hdec := of_decide_eq_true hpm.2
      exact fun hxc => hdec (by rw [hxc])
  have hiff : ∀ x, ((x, Frame.message
      { id := g.mem.nextMessageID, username := c.username, text := inc.text,
        timestamp := ts, reactions := [], fileUrl := inc.fileUrl,
        fileType := inc.fileType, fileName := inc.fileName, room := c.room }) ∈
      stepDeliveries
        (runHub h ((readPumpStep g c inc ts).events.map
          (fun ev => HubEvent.bcast ev.1 ev.2))) h) ↔
      x ∈ roomMembers h c.room ∧ ¬ x = c := by
    rw [hdel]
    intro x
    constructor
    · intro hx
      rcases List.mem_append.mp hx with hx1 | hx2
      · exfalso
        obtain ⟨a, _, he⟩ := List.mem_map.mp hx1
        exact Frame.noConfusion (congrArg Prod.snd he)
      · have hpm := pair_mem_filterMap _ _ _ _ _ hx2
        refine ⟨hpm.1, ?_⟩
        have hdec := of_decide_eq_true hpm.2
        exact fun hxc => hdec (by rw [hxc])
    · rintro ⟨hx, hxc⟩
      refine List.mem_append.mpr (Or.inr ?_)
      refine List.mem_map.mpr ⟨x, List.mem_filter.mpr ⟨hx, ?_⟩, rfl⟩
      exact decide_eq_true (fun hxx => hxc (by injection hxx with hh; rw [hh]))
  refine ⟨g.mem.nextMessageID,
    { id := g.mem.nextMessageID, username := c.username, text := inc.text,
      timestamp := ts, reactions := [], fileUrl := inc.fileUrl,
      fileType := inc.fileType, fileName := inc.fileName, room := c.room },
    ?_, rfl, rfl, rfl, rfl, ?_, hiff, honly⟩
  · simp [readPumpStep, ht1, hnr, hns, saveMessageG, hdb, saveMessageMem]
  · simp [readPumpStep, ht1, hnr, hns, saveMessageG, hdb, saveMessageMem, hcid]

/-- Witness for C5: A sends "hi" with correlation id 1001 in "general"
(store empty, so the durable id is 1); the ack goes back on A's socket
only, and the message reaches exactly the other "general" member B —
nothing reaches A or the "other"-room member C. -/
theorem C5_chat_send_witness :
    ∃ (i : Int) (m : Message),
      (readPumpStep (initG false) connA incChat "t").g.mem.messagesList =
        (initG false).mem.messagesList ++ [m] ∧
      m.id = i ∧ m.username = connA.username ∧ m.text = incChat.text ∧
      m.room = connA.room ∧
      (readPumpStep (initG false) connA incChat "t").direct =
        [Frame.ack incChat.clientId i] ∧
      (∀ x, ((x, Frame.message m) ∈
          stepDeliveries
            (runHub hTrio ((readPumpStep (initG false) connA incChat "t").events.map
              (fun ev => HubEvent.bcast ev.1 ev.2))) hTrio ↔
          x ∈ roomMembers hTrio connA.room ∧ ¬ x = connA)) ∧
      (∀ x fr, ((x, fr) ∈
          stepDeliveries
            (runHub hTrio ((readPumpStep (initG false) connA incChat "t").events.map
              (fun ev => HubEvent.bcast ev.1 ev.2))) hTrio) →
          x ∈ roomMembers hTrio connA.room ∧ ¬ x = connA) :=
  C5_chat_send_pipeline (initG false) hTrio connA incChat "t" rfl (by decide) (by decide)
    (by decide) (by decide) (by decide) (by decide)

end ChatBox
